import Mathlib

/-! Verification of the dictionary lookup engine of the french_popups
repository (src/dict.js).  JavaScript strings are modelled as lists of
characters (Unicode code points; all dictionary data is BMP text, where
JavaScript's UTF-16 code-unit comparison coincides with code-point
comparison).  Asynchronous resource reads are modelled as functions from
byte ranges to optional text, with a miss standing for a failed fetch. -/

namespace FP

/-- JavaScript strings, modelled as lists of characters. -/
abbrev Str := List Char

/-- Embed a Lean string literal into the string model. -/
def st (x : String) : Str := x.data

/-- The typographic right single quotation mark U+2019 used by the
dictionary for contractions. -/
def apos : Char := Char.ofNat 0x2019

/-- The ASCII apostrophe U+0027. -/
def apos1 : Char := Char.ofNat 39

/-- JavaScript per-character toLowerCase, restricted to the Latin
letters that occur in the dictionary data (ASCII and Latin-1, plus the
ligature and Y-diaeresis pairs). -/
def lowerChar (c : Char) : Char :=
  if 0x41 ≤ c.toNat ∧ c.toNat ≤ 0x5A then Char.ofNat (c.toNat + 32)
  else if 0xC0 ≤ c.toNat ∧ c.toNat ≤ 0xDE ∧ c.toNat ≠ 0xD7 then Char.ofNat (c.toNat + 32)
  else if c.toNat = 0x152 then Char.ofNat 0x153
  else if c.toNat = 0x178 then Char.ofNat 0xFF
  else c

/-- JavaScript toLowerCase on the string model. -/
def jsToLower (s : Str) : Str := s.map lowerChar

/-- JavaScript per-character toUpperCase on the same character range;
U+00DF maps to the two-character string SS as in JavaScript. -/
def upperChar (c : Char) : Str :=
  if c.toNat = 0xDF then st "SS"
  else if 0x61 ≤ c.toNat ∧ c.toNat ≤ 0x7A then [Char.ofNat (c.toNat - 32)]
  else if 0xE0 ≤ c.toNat ∧ c.toNat ≤ 0xFE ∧ c.toNat ≠ 0xF7 then [Char.ofNat (c.toNat - 32)]
  else if c.toNat = 0x153 then [Char.ofNat 0x152]
  else if c.toNat = 0xFF then [Char.ofNat 0x178]
  else [c]

/-- JavaScript toUpperCase on the string model. -/
def jsToUpper (s : Str) : Str := s.flatMap upperChar

/-- The regular-expression test /[A-Z]/.test(w). -/
def hasUpperAZ (s : Str) : Bool := s.any (fun c => decide (0x41 ≤ c.toNat ∧ c.toNat ≤ 0x5A))

/-- Whitespace characters recognised here for JavaScript's \s class and
trim (ASCII whitespace plus NBSP; the code never meets other spaces). -/
def isJsSpace (c : Char) : Bool :=
  c = ' ' || c = '\t' || c = '\n' || c = '\r' ||
  c.toNat = 11 || c.toNat = 12 || c.toNat = 0xA0

/-- JavaScript String.prototype.trim on the string model. -/
def jsTrim (s : Str) : Str :=
  ((s.dropWhile isJsSpace).reverse.dropWhile isJsSpace).reverse

/-- word.slice(0, -n): drop the last n characters. -/
def jsDropEnd (n : Nat) (w : Str) : Str := w.take (w.length - n)

/-- The contraction prefixes of dict.js (each ends in U+2019). -/
def contractions : List Str :=
  [st "qu" ++ [apos], st "l" ++ [apos], st "d" ++ [apos], st "c" ++ [apos],
   st "j" ++ [apos], st "m" ++ [apos], st "t" ++ [apos], st "n" ++ [apos],
   st "s" ++ [apos]]

/-- dict.js isAcronym: all-uppercase word of length greater than one
containing an A-Z letter, or a contraction prefix followed by such an
all-uppercase sequence. -/
def isAcronym (word : Str) : Bool :=
  (decide (word.length > 1) && word == jsToUpper word && hasUpperAZ word) ||
  contractions.any (fun contraction =>
    contraction.isPrefixOf word &&
      (let afterContraction := word.drop contraction.length
       decide (afterContraction.length > 0) &&
         afterContraction == jsToUpper afterContraction &&
         hasUpperAZ afterContraction))

/-- dict.js getSearchTerm: acronyms are kept verbatim, everything else
is lowercased. -/
def getSearchTerm (word : Str) : Str :=
  if isAcronym word then word else jsToLower word

/-- dict.js getPluralCandidates: ordered singular candidates for a
plural surface form. -/
def getPluralCandidates (word : Str) : List Str :=
  if word.length < 3 then []
  else
    (if (st "eaux").isSuffixOf word then [jsDropEnd 1 word] else []) ++
    (if (st "aux").isSuffixOf word then
      let stem := jsDropEnd 3 word
      [stem ++ st "al", stem ++ st "au", stem ++ st "ail"]
     else []) ++
    (if (st "eux").isSuffixOf word && !((st "ieux").isSuffixOf word) then
      [jsDropEnd 1 word] else []) ++
    (if (st "oux").isSuffixOf word then [jsDropEnd 1 word] else []) ++
    (if (st "s").isSuffixOf word && decide (word.length > 2) then [jsDropEnd 1 word] else [])

/-- dict.js isValidPluralTransformation. -/
def isValidPluralTransformation (pluralForm singularForm pos : Str) : Bool :=
  if pos.isEmpty || (jsTrim pos).isEmpty then
    ((st "aux").isSuffixOf pluralForm && (st "al").isSuffixOf singularForm) ||
    ((st "aux").isSuffixOf pluralForm && (st "au").isSuffixOf singularForm) ||
    ((st "aux").isSuffixOf pluralForm && (st "ail").isSuffixOf singularForm) ||
    ((st "eaux").isSuffixOf pluralForm && (st "eau").isSuffixOf singularForm) ||
    ((st "eux").isSuffixOf pluralForm && (st "eu").isSuffixOf singularForm) ||
    ((st "oux").isSuffixOf pluralForm && (st "ou").isSuffixOf singularForm) ||
    ((st "s").isSuffixOf pluralForm && !((st "s").isSuffixOf singularForm))
  else
    let posLower := jsTrim (jsToLower pos)
    if posLower ≠ st "n" ∧ posLower ≠ st "adj" then false
    else if posLower = st "n" then
      ((st "aux").isSuffixOf pluralForm && (st "al").isSuffixOf singularForm) ||
      ((st "aux").isSuffixOf pluralForm && (st "au").isSuffixOf singularForm) ||
      ((st "aux").isSuffixOf pluralForm && (st "ail").isSuffixOf singularForm) ||
      ((st "eaux").isSuffixOf pluralForm && (st "eau").isSuffixOf singularForm) ||
      ((st "eux").isSuffixOf pluralForm && (st "eu").isSuffixOf singularForm) ||
      ((st "oux").isSuffixOf pluralForm && (st "ou").isSuffixOf singularForm) ||
      ((st "s").isSuffixOf pluralForm && !((st "s").isSuffixOf singularForm))
    else
      ((st "aux").isSuffixOf pluralForm && (st "al").isSuffixOf singularForm) ||
      ((st "eaux").isSuffixOf pluralForm && (st "eau").isSuffixOf singularForm) ||
      ((st "s").isSuffixOf pluralForm && !((st "s").isSuffixOf singularForm))

/-- dict.js getFeminineCandidates: ordered masculine candidates for a
feminine surface form; each matched suffix pattern returns at once. -/
def getFeminineCandidates (word : Str) : List Str :=
  if !((st "e").isSuffixOf word) || decide (word.length < 3) then []
  else
    let stem := jsDropEnd 1 word
    if (st "ienn").isSuffixOf stem then [jsDropEnd 1 stem]
    else if (st "teus").isSuffixOf stem then [jsDropEnd 5 word ++ st "teur"]
    else if (st "eus").isSuffixOf stem then [jsDropEnd 4 word ++ st "eux"]
    else if (st "ric").isSuffixOf stem then
      [jsDropEnd 4 word ++ st "teur", jsDropEnd 4 word ++ st "eur"]
    else if (st "èr").isSuffixOf stem then [jsDropEnd 3 word ++ st "er"]
    else if (st "ell").isSuffixOf stem then [jsDropEnd 4 word ++ st "el"]
    else if (st "enn").isSuffixOf stem then [jsDropEnd 4 word ++ st "en"]
    else if (st "onn").isSuffixOf stem then [jsDropEnd 4 word ++ st "on"]
    else if (st "inn").isSuffixOf stem then [jsDropEnd 4 word ++ st "in"]
    else if (st "ett").isSuffixOf stem then [jsDropEnd 4 word ++ st "et"]
    else if (st "v").isSuffixOf stem then [jsDropEnd 2 word ++ st "f"]
    else if (st "s").isSuffixOf stem then [jsDropEnd 2 word ++ st "x"]
    else if (st "qu").isSuffixOf stem then [jsDropEnd 3 word ++ st "c"]
    else if (st "ch").isSuffixOf stem then [jsDropEnd 3 word ++ st "c"]
    else if (st "gu").isSuffixOf stem then [jsDropEnd 3 word ++ st "g"]
    else [stem]

/-- dict.js isValidFeminineTransformation. -/
def isValidFeminineTransformation (feminineForm masculineForm pos gender : Str) : Bool :=
  let patterns :=
    ((st "ienne").isSuffixOf feminineForm && (st "ien").isSuffixOf masculineForm) ||
    ((st "enne").isSuffixOf feminineForm && (st "en").isSuffixOf masculineForm) ||
    ((st "onne").isSuffixOf feminineForm && (st "on").isSuffixOf masculineForm) ||
    ((st "inne").isSuffixOf feminineForm && (st "in").isSuffixOf masculineForm) ||
    ((st "elle").isSuffixOf feminineForm && (st "el").isSuffixOf masculineForm) ||
    ((st "ette").isSuffixOf feminineForm && (st "et").isSuffixOf masculineForm) ||
    ((st "ve").isSuffixOf feminineForm && (st "f").isSuffixOf masculineForm) ||
    ((st "se").isSuffixOf feminineForm && (st "x").isSuffixOf masculineForm) ||
    ((st "ère").isSuffixOf feminineForm && (st "er").isSuffixOf masculineForm) ||
    ((st "euse").isSuffixOf feminineForm && (st "eux").isSuffixOf masculineForm) ||
    ((st "rice").isSuffixOf feminineForm && (st "teur").isSuffixOf masculineForm) ||
    ((st "rice").isSuffixOf feminineForm && (st "eur").isSuffixOf masculineForm) ||
    ((st "teuse").isSuffixOf feminineForm && (st "teur").isSuffixOf masculineForm) ||
    ((st "que").isSuffixOf feminineForm && (st "c").isSuffixOf masculineForm) ||
    ((st "che").isSuffixOf feminineForm && (st "c").isSuffixOf masculineForm) ||
    ((st "gue").isSuffixOf feminineForm && (st "g").isSuffixOf masculineForm) ||
    (jsDropEnd 1 feminineForm == masculineForm)
  if pos.isEmpty || (jsTrim pos).isEmpty || gender.isEmpty || (jsTrim gender).isEmpty then
    if !((st "e").isSuffixOf feminineForm) then false else patterns
  else
    let posLower := jsTrim (jsToLower pos)
    let genderLower := jsTrim (jsToLower gender)
    if posLower ≠ st "n" ∧ posLower ≠ st "adj" then false
    else if genderLower ≠ st "m" then false
    else if !((st "e").isSuffixOf feminineForm) then false
    else patterns

/-- dict.js tryRemoveContraction: strip a leading contraction prefix
from a word of length at least 3. -/
def tryRemoveContraction (word : Str) : Option (Str × Str) :=
  if word.length < 3 then none
  else contractions.findSome? (fun contraction =>
    if contraction.isPrefixOf word then
      some (contraction, word.drop contraction.length)
    else none)

/-- Claim C6's wording of the plural-candidate generator: suffix
replacement rules in priority order eaux→eau; aux→al, au, ail; eux→eu
excluding ieux; oux→ou; trailing s stripped; empty below length 3. -/
def pluralCandidatesSpec (w : Str) : List Str :=
  if w.length < 3 then []
  else
    (if (st "eaux").isSuffixOf w then [jsDropEnd 4 w ++ st "eau"] else []) ++
    (if (st "aux").isSuffixOf w then
      [jsDropEnd 3 w ++ st "al", jsDropEnd 3 w ++ st "au", jsDropEnd 3 w ++ st "ail"]
     else []) ++
    (if (st "eux").isSuffixOf w && !((st "ieux").isSuffixOf w) then
      [jsDropEnd 3 w ++ st "eu"] else []) ++
    (if (st "oux").isSuffixOf w then [jsDropEnd 3 w ++ st "ou"] else []) ++
    (if (st "s").isSuffixOf w then [jsDropEnd 1 w] else [])

/-- Claim C7's wording of the feminine-candidate generator: terminal
suffix patterns on the word itself, in strict specificity order. -/
def feminineCandidatesSpec (w : Str) : List Str :=
  if !((st "e").isSuffixOf w) || decide (w.length < 3) then []
  else if (st "ienne").isSuffixOf w then [jsDropEnd 5 w ++ st "ien"]
  else if (st "teuse").isSuffixOf w then [jsDropEnd 5 w ++ st "teur"]
  else if (st "euse").isSuffixOf w then [jsDropEnd 4 w ++ st "eux"]
  else if (st "rice").isSuffixOf w then
    [jsDropEnd 4 w ++ st "teur", jsDropEnd 4 w ++ st "eur"]
  else if (st "ère").isSuffixOf w then [jsDropEnd 3 w ++ st "er"]
  else if (st "elle").isSuffixOf w then [jsDropEnd 4 w ++ st "el"]
  else if (st "enne").isSuffixOf w then [jsDropEnd 4 w ++ st "en"]
  else if (st "onne").isSuffixOf w then [jsDropEnd 4 w ++ st "on"]
  else if (st "inne").isSuffixOf w then [jsDropEnd 4 w ++ st "in"]
  else if (st "ette").isSuffixOf w then [jsDropEnd 4 w ++ st "et"]
  else if (st "ve").isSuffixOf w then [jsDropEnd 2 w ++ st "f"]
  else if (st "se").isSuffixOf w then [jsDropEnd 2 w ++ st "x"]
  else if (st "que").isSuffixOf w then [jsDropEnd 3 w ++ st "c"]
  else if (st "che").isSuffixOf w then [jsDropEnd 3 w ++ st "c"]
  else if (st "gue").isSuffixOf w then [jsDropEnd 3 w ++ st "g"]
  else [jsDropEnd 1 w]

/-- An entry of a bilingual .idx index: headword plus byte range of the
entry line in the bulk resource. -/
structure IndexEntry where
  headword : Str
  offset : Nat
  length : Nat
deriving DecidableEq

/-- An entry of the conjugation index fra.idx (form lowercased at load). -/
structure ConjIndexEntry where
  conjugatedForm : Str
  offset : Nat
deriving DecidableEq

/-- A parsed conjugation line of fra.u8. -/
structure ConjRecord where
  conjugatedForm : Str
  infinitive : Str
  tenses : Str
  ipas : Str
  fullForm : Str
deriving DecidableEq

/-- The alternateDefinition object attached when a word has both a
conjugation and a bilingual sense (type tag is always "bilingual"). -/
structure AltDef where
  atype : Str
  headword : Str
  pos : Str
  gender : Str
  pronunciation : Option Str
  translations : Str
  definition : Str
deriving DecidableEq

/-- A dictionary entry as returned by lookup and lookupAll: the six
parsed fields of a .u8 line plus the optional annotations the
orchestrator adds as extra object properties (the field named
contractionPrefix in the source is called contractionPfx here). -/
structure Result where
  headword : Str
  pos : Str
  gender : Str
  pronunciation : Option Str
  translations : Str
  definition : Str
  searchedForm : Option Str := none
  inflectionNote : Option Str := none
  matchedWords : Option Nat := none
  conjugationInfo : Option ConjRecord := none
  alternateDefinition : Option AltDef := none
  contractionPfx : Option Str := none
  originalSearched : Option Str := none
  isBackup : Bool := false
  backupLanguage : Option Str := none
deriving DecidableEq

/-- The resource environment: the parsed index resources (none models a
fetch or parse failure of the whole resource) and the ranged byte reads
of the bulk .u8 resources (none models a failed range read). -/
structure Env where
  idx : Option (List IndexEntry)
  conjIdx : Option (List ConjIndexEntry)
  u8 : Nat → Nat → Option Str
  conjU8 : Nat → Nat → Option Str
  backupIdx : Option (List IndexEntry)
  backupU8 : Nat → Nat → Option Str

/-- The dictionary instance state.  In every reachable JavaScript state
each loaded flag agrees with nullity of its cache, so a flag/cache pair
is represented by one Option field. -/
structure Dict where
  currentLanguage : Str
  indexCache : Option (List IndexEntry)
  conjugationIndexCache : Option (List ConjIndexEntry)
  backupIndexCache : Option (List IndexEntry)

/-- JavaScript String.split with a one-character separator: empty
fields are kept, an empty string yields one empty field. -/
def splitChar (sep : Char) : Str → List Str
  | [] => [[]]
  | c :: rest =>
    if c = sep then [] :: splitChar sep rest
    else
      match splitChar sep rest with
      | [] => [[c]]
      | t :: ts => (c :: t) :: ts

/-- Fuel-driven worker for JavaScript split(/\s+/); the fuel is always
at least the string length plus one, so exhaustion is unreachable. -/
def splitWsFuel : Nat → Str → List Str
  | 0, s => [s]
  | fuel + 1, s =>
    let tok := s.takeWhile (fun c => !(isJsSpace c))
    let rest := s.dropWhile (fun c => !(isJsSpace c))
    match rest with
    | [] => [tok]
    | _ :: _ => tok :: splitWsFuel fuel (rest.dropWhile isJsSpace)

/-- JavaScript split(/\s+/): split on maximal whitespace runs, keeping
an empty first field for a leading run and an empty last field for a
trailing run, as JavaScript does. -/
def splitWs (s : Str) : List Str := splitWsFuel (s.length + 1) s

/-- Fuel-driven worker for global literal replacement; the fuel is
always at least the string length, so exhaustion is unreachable. -/
def replaceAllFuel (pat repl : Str) : Nat → Str → Str
  | 0, s => s
  | fuel + 1, s =>
    match s with
    | [] => []
    | c :: rest =>
      if pat ≠ [] ∧ pat.isPrefixOf s = true then
        repl ++ replaceAllFuel pat repl fuel (s.drop pat.length)
      else c :: replaceAllFuel pat repl fuel rest

/-- JavaScript s.replace(/pat/g, repl) for a literal non-empty pattern:
leftmost, non-overlapping replacement. -/
def replaceAll (pat repl s : Str) : Str := replaceAllFuel pat repl s.length s

/-- The unescape helper of dict.js parseEntry: sequential global
replacement of the escapes in source order. -/
def unescape (s : Str) : Str :=
  if s.isEmpty then []
  else
    replaceAll (st "\\\\") (st "\\")
      (replaceAll (st "\\r") (st "\r")
        (replaceAll (st "\\t") (st "\t")
          (replaceAll (st "\\n") (st "\n") s)))

/-- dict.js parseEntry: strip one trailing newline, split on tabs,
require at least 5 fields, pad to 6, unescape each field. -/
def parseEntry (line : Str) : Option Result :=
  let trimmedLine := if (st "\n").isSuffixOf line then jsDropEnd 1 line else line
  let fields := splitChar '\t' trimmedLine
  if fields.length < 5 then none
  else
    some
      { headword := unescape (fields.getD 0 [])
        pos := unescape (fields.getD 1 [])
        gender := unescape (fields.getD 2 [])
        pronunciation := some (unescape (fields.getD 3 []))
        translations := unescape (fields.getD 4 [])
        definition := unescape (fields.getD 5 []) }

/-- dict.js parseConjugationEntry: tab-split with at least 4 fields;
a missing or empty fifth field falls back to the conjugated form. -/
def parseConjugationEntry (line : Str) : Option ConjRecord :=
  let fields := splitChar '\t' line
  if fields.length < 4 then none
  else
    some
      { conjugatedForm := fields.getD 0 []
        infinitive := fields.getD 1 []
        tenses := fields.getD 2 []
        ipas := fields.getD 3 []
        fullForm :=
          (let f4 := fields.getD 4 []
           if f4.isEmpty then fields.getD 0 [] else f4) }

/-- dict.js fetchEntry: ranged read of the primary .u8 resource then
parseEntry; a read failure is caught and becomes a miss. -/
def fetchEntry (env : Env) (offset length : Nat) : Option Result :=
  match env.u8 offset length with
  | none => none
  | some text => parseEntry text

/-- dict.js fetchBackupEntry: the same against fra-eng.u8. -/
def fetchBackupEntry (env : Env) (offset length : Nat) : Option Result :=
  match env.backupU8 offset length with
  | none => none
  | some text => parseEntry text

/-- dict.js fetchConjugationEntries: read a 1KB chunk at the offset,
take the first line, fail if its trim is empty, else parse it. -/
def fetchConjugationEntries (env : Env) (offset : Nat) : Option ConjRecord :=
  match env.conjU8 offset 1024 with
  | none => none
  | some text =>
    let lines := splitChar (Char.ofNat 10) text
    let first := lines.getD 0 []
    if (jsTrim first).isEmpty then none
    else parseConjugationEntry first

/-- A default index entry for out-of-range reads (never observed: all
accesses are in bounds along reachable paths). -/
def dIdx : IndexEntry := ⟨[], 0, 0⟩

/-- Headword of the index entry at position i. -/
def hwAt (idx : List IndexEntry) (i : Nat) : Str := (idx.getD i dIdx).headword

/-- JavaScript string comparison with < : lexicographic by code unit
(code point on BMP data). -/
def strLt : Str → Str → Bool
  | _, [] => false
  | [], _ :: _ => true
  | a :: as, b :: bs =>
    if a.toNat < b.toNat then true
    else if b.toNat < a.toNat then false
    else strLt as bs

/-- The shared binary-search loop of dict.js (binarySearch,
binarySearchAll, binarySearchConjugation, lookupMultiWord), abstracted
over the headword projection.  Returns the JavaScript loop's foundIndex
(none for -1) and the final value of left; the fuel is always larger
than the interval width, so exhaustion is unreachable.  When mid is 0
and the scan should move left, JavaScript sets right to -1 and the loop
exits, which is returned here directly. -/
def bsearchAux (hw : Nat → Str) (term : Str) : Nat → Nat → Nat → Option Nat × Nat
  | 0, left, _ => (none, left)
  | fuel + 1, left, right =>
    if left ≤ right then
      let mid := (left + right) / 2
      if hw mid = term then (some mid, left)
      else if strLt (hw mid) term then bsearchAux hw term fuel (mid + 1) right
      else if mid = 0 then (none, left)
      else bsearchAux hw term fuel left (mid - 1)
    else (none, left)

/-- dict.js binarySearch: exact-match search of the primary index,
guarded on a null or empty cache; the search term goes through
getSearchTerm. -/
def binarySearch (cache : Option (List IndexEntry)) (headword : Str) : Option IndexEntry :=
  match cache with
  | none => none
  | some idx =>
    if idx.length = 0 then none
    else
      let searchTerm := getSearchTerm headword
      match (bsearchAux (hwAt idx) searchTerm (idx.length + 1) 0 (idx.length - 1)).1 with
      | some i => some (idx.getD i dIdx)
      | none => none

/-- The backwards scan of dict.js binarySearchAll: while the previous
entry still carries the search term, step left. -/
def walkBack (idx : List IndexEntry) (term : Str) : Nat → Nat
  | 0 => 0
  | s + 1 => if hwAt idx s = term then walkBack idx term s else s + 1

/-- dict.js binarySearchAll: binary search to any occurrence, walk back
to the first, then collect the consecutive run of entries sharing the
search term. -/
def binarySearchAll (cache : Option (List IndexEntry)) (headword : Str) : List IndexEntry :=
  match cache with
  | none => []
  | some idx =>
    if idx.length = 0 then []
    else
      let searchTerm := getSearchTerm headword
      match (bsearchAux (hwAt idx) searchTerm (idx.length + 1) 0 (idx.length - 1)).1 with
      | none => []
      | some foundIndex =>
        let startIndex := walkBack idx searchTerm foundIndex
        (idx.drop startIndex).takeWhile (fun e => decide (e.headword = searchTerm))

/-- dict.js binarySearchAllBackup: textually the same algorithm as
binarySearchAll, run on the backup cache. -/
def binarySearchAllBackup (cache : Option (List IndexEntry)) (headword : Str) : List IndexEntry :=
  binarySearchAll cache headword

/-- A default conjugation index entry for out-of-range reads. -/
def cIdxD : ConjIndexEntry := ⟨[], 0⟩

/-- Conjugated form of the conjugation index entry at position i. -/
def cfAt (idx : List ConjIndexEntry) (i : Nat) : Str := (idx.getD i cIdxD).conjugatedForm

/-- dict.js binarySearchConjugation: exact search on the lowercased
form (no getSearchTerm here). -/
def binarySearchConjugation (cache : Option (List ConjIndexEntry)) (conjugatedForm : Str) :
    Option ConjIndexEntry :=
  match cache with
  | none => none
  | some idx =>
    if idx.length = 0 then none
    else
      let searchTerm := jsToLower conjugatedForm
      match (bsearchAux (cfAt idx) searchTerm (idx.length + 1) 0 (idx.length - 1)).1 with
      | some i => some (idx.getD i cIdxD)
      | none => none

/-- JavaScript truthiness of a nullable string. -/
def optTruthy : Option Str → Bool
  | none => false
  | some s => !s.isEmpty

/-- The optional pronunciation bracket appended to inflection notes. -/
def addPron (note : Str) (pronunciation : Option Str) : Str :=
  if optTruthy pronunciation then note ++ st " [" ++ pronunciation.getD [] ++ st "]"
  else note

/-- dict.js getFeminineInflectionNote. -/
def getFeminineInflectionNote (feminineForm masculineForm : Str) (pronunciation : Option Str) :
    Str :=
  let _ := feminineForm
  addPron (st "feminine of \"" ++ masculineForm ++ st "\"") pronunciation

/-- dict.js getInflectionNote: plural-style notes for the known plural
suffix pairs, a generic note otherwise. -/
def getInflectionNote (searchedForm baseForm : Str) (pronunciation : Option Str) : Str :=
  let note :=
    if (st "s").isSuffixOf searchedForm && !((st "s").isSuffixOf baseForm) then
      st "plural of \"" ++ baseForm ++ st "\""
    else if (st "aux").isSuffixOf searchedForm && (st "al").isSuffixOf baseForm then
      st "plural of \"" ++ baseForm ++ st "\""
    else if (st "aux").isSuffixOf searchedForm && (st "au").isSuffixOf baseForm then
      st "plural of \"" ++ baseForm ++ st "\""
    else if (st "aux").isSuffixOf searchedForm && (st "ail").isSuffixOf baseForm then
      st "plural of \"" ++ baseForm ++ st "\""
    else if (st "eaux").isSuffixOf searchedForm && (st "eau").isSuffixOf baseForm then
      st "plural of \"" ++ baseForm ++ st "\""
    else if (st "eux").isSuffixOf searchedForm && (st "eu").isSuffixOf baseForm then
      st "plural of \"" ++ baseForm ++ st "\""
    else if (st "oux").isSuffixOf searchedForm && (st "ou").isSuffixOf baseForm then
      st "plural of \"" ++ baseForm ++ st "\""
    else st "inflected form of \"" ++ baseForm ++ st "\""
  addPron note pronunciation

/-- The mood names recognised by formatTenseInfo. -/
def moods : List Str :=
  [st "indicative", st "subjunctive", st "conditional", st "imperative",
   st "participle", st "gerund", st "infinitive"]

/-- Set a key of the mood map to the empty tense list (JavaScript
moodTenses[currentMood] = []). -/
def assocSet : List (Str × List Str) → Str → List (Str × List Str)
  | [], k => [(k, [])]
  | (k', v) :: rest, k =>
    if k' = k then (k, []) :: rest else (k', v) :: assocSet rest k

/-- Push a tense onto an existing key of the mood map. -/
def assocPush : List (Str × List Str) → Str → Str → List (Str × List Str)
  | [], _, _ => []
  | (k', v) :: rest, k, x =>
    if k' = k then (k', v ++ [x]) :: rest else (k', v) :: assocPush rest k x

/-- Look a key up in the mood map. -/
def assocGet : List (Str × List Str) → Str → Option (List Str)
  | [], _ => none
  | (k', v) :: rest, k => if k' = k then some v else assocGet rest k

/-- The mood/tense grouping loop of formatTenseInfo: a part naming a
mood (case-insensitively) becomes the current mood with a fresh list,
other parts are pushed under the current mood, parts before any mood
are dropped. -/
def buildMoodTenses : List Str → Option Str → List (Str × List Str) → List (Str × List Str)
  | [], _, acc => acc
  | p :: rest, cur, acc =>
    if moods.contains (jsToLower p) then buildMoodTenses rest (some p) (assocSet acc p)
    else
      match cur with
      | some m => buildMoodTenses rest (some m) (assocPush acc m p)
      | none => buildMoodTenses rest none acc

/-- Is the first character a whitespace character (the \s test after a
matched alternative)? -/
def wsFirst : Str → Bool
  | [] => false
  | c :: _ => isJsSpace c

/-- One regex alternative followed by a whitespace character. -/
def startsThenWs (p s : Str) : Bool :=
  p.isPrefixOf s && wsFirst (s.drop p.length)

/-- Any of the alternatives followed by a whitespace character, at the
start of the string. -/
def anyAltThenWs (alts : List Str) (s : Str) : Bool :=
  alts.any (fun a => startsThenWs a s)

/-- The /^qu[`]?(alts)\s/ shape of dict.js (the character class in the
source holds only the ASCII apostrophe): qu, an optional ASCII
apostrophe, an alternative, then whitespace. -/
def quApos (alts : List Str) (s : Str) : Bool :=
  if (st "qu").isPrefixOf s then
    let rest := s.drop 2
    let rest2 :=
      match rest with
      | c :: r => if c = apos1 then r else rest
      | [] => rest
    anyAltThenWs alts rest2
  else false

/-- The /^que\s+(alts)\s/ shape of dict.js: que, at least one
whitespace character, an alternative, then whitespace. -/
def queThen (alts : List Str) (s : Str) : Bool :=
  if (st "que").isPrefixOf s then
    let rest := s.drop 3
    let ws := rest.takeWhile isJsSpace
    let rest2 := rest.dropWhile isJsSpace
    !ws.isEmpty && anyAltThenWs alts rest2
  else false

/-- The person/number extraction of formatTenseInfo, in source order. -/
def personNumberOf (fullForm : Str) : Str :=
  if (st "je ").isPrefixOf fullForm then st "1st person singular"
  else if (st "tu ").isPrefixOf fullForm then st "2nd person singular"
  else if anyAltThenWs [st "il", st "elle", st "on"] fullForm then st "3rd person singular"
  else if (st "nous ").isPrefixOf fullForm then st "1st person plural"
  else if (st "vous ").isPrefixOf fullForm then st "2nd person plural"
  else if anyAltThenWs [st "ils", st "elles"] fullForm then st "3rd person plural"
  else if quApos [st "il", st "elle", st "on"] fullForm then st "3rd person singular"
  else if quApos [st "ils", st "elles"] fullForm then st "3rd person plural"
  else if queThen [st "je", st "j" ++ [apos1]] fullForm then st "1st person singular"
  else if queThen [st "tu"] fullForm then st "2nd person singular"
  else if queThen [st "nous"] fullForm then st "1st person plural"
  else if queThen [st "vous"] fullForm then st "2nd person plural"
  else []

/-- dict.js formatTenseInfo: group semicolon-separated tags under their
moods, join tenses with " or " and moods with "; ", and append the
person/number descriptor read off fullForm. -/
def formatTenseInfo (tenses fullForm : Str) : Str :=
  if tenses.isEmpty then []
  else
    let parts := splitChar ';' tenses
    let personNumber := personNumberOf fullForm
    let moodTenses := buildMoodTenses parts none []
    let formattedMoods := moods.filterMap (fun mood =>
      match assocGet moodTenses mood with
      | some tenseList =>
        some (mood ++ [' '] ++ List.intercalate (st " or ") tenseList)
      | none => none)
    let tenseDesc := List.intercalate (st "; ") formattedMoods
    if personNumber.isEmpty then tenseDesc
    else tenseDesc ++ st ", " ++ personNumber

/-- Modelled from the spec: Unicode canonical composition (NFC), the
platform primitive String.prototype.normalize which is not part of
src/, restricted to the combining sequences of French text.  The table
composes a base letter with a combining grave, acute, circumflex,
diaeresis or cedilla. -/
def composePair (c m : Char) : Option Char :=
  if m.toNat = 0x300 then
    if c = 'a' then some 'à' else if c = 'e' then some 'è' else if c = 'u' then some 'ù'
    else if c = 'A' then some 'À' else if c = 'E' then some 'È'
    else if c = 'U' then some 'Ù' else none
  else if m.toNat = 0x301 then
    if c = 'e' then some 'é' else if c = 'E' then some 'É' else none
  else if m.toNat = 0x302 then
    if c = 'a' then some 'â' else if c = 'e' then some 'ê' else if c = 'i' then some 'î'
    else if c = 'o' then some 'ô' else if c = 'u' then some 'û'
    else if c = 'A' then some 'Â' else if c = 'E' then some 'Ê' else if c = 'I' then some 'Î'
    else if c = 'O' then some 'Ô' else if c = 'U' then some 'Û' else none
  else if m.toNat = 0x308 then
    if c = 'e' then some 'ë' else if c = 'i' then some 'ï' else if c = 'u' then some 'ü'
    else if c = 'y' then some 'ÿ' else if c = 'E' then some 'Ë' else if c = 'I' then some 'Ï'
    else if c = 'U' then some 'Ü' else none
  else if m.toNat = 0x327 then
    if c = 'c' then some 'ç' else if c = 'C' then some 'Ç' else none
  else none

/-- Fuel-driven NFC worker; the fuel is always at least the string
length, so exhaustion is unreachable.  Precomposed text is a fixed
point; a composable base/combining pair is replaced by the composed
character. -/
def nfcFuel : Nat → Str → Str
  | 0, s => s
  | fuel + 1, s =>
    match s with
    | [] => []
    | [c] => [c]
    | c :: m :: rest =>
      match composePair c m with
      | some d0 => nfcFuel fuel (d0 :: rest)
      | none => c :: nfcFuel fuel (m :: rest)

/-- Modelled from the spec: NFC normalization on the string model. -/
def nfc (s : Str) : Str := nfcFuel s.length s

/-- The shared query normalization of lookup and lookupAll: NFC, ASCII
apostrophe to U+2019, then acronym-aware casing. -/
def normalizeWord (word : Str) : Str :=
  getSearchTerm (replaceAll [apos1] [apos] (nfc word))

/-- The annotation shared by the plural stage of lookup and by all the
heuristic stages of lookupAll: record the searched form, attach
getInflectionNote (computed on the still-present pronunciation), then
clear the pronunciation. -/
def annotInflected (nw : Str) (entry : Result) : Result :=
  { entry with
    searchedForm := some nw
    inflectionNote := some (getInflectionNote nw entry.headword entry.pronunciation)
    pronunciation := none }

/-- The annotation of the feminine-of-plural subchain inside lookup's
plural stage: like annotInflected but with the gender forced to f. -/
def annotInflectedFem (nw : Str) (entry : Result) : Result :=
  { entry with
    searchedForm := some nw
    inflectionNote := some (getInflectionNote nw entry.headword entry.pronunciation)
    gender := st "f"
    pronunciation := none }

/-- The annotation of lookup's feminine stage: getFeminineInflectionNote
and the gender forced to f. -/
def annotFeminine (nw : Str) (entry : Result) : Result :=
  { entry with
    searchedForm := some nw
    inflectionNote := some (getFeminineInflectionNote nw entry.headword entry.pronunciation)
    gender := st "f"
    pronunciation := none }

/-- First hit of an option-valued function over a list (the shape of
every first-valid-wins candidate loop in dict.js). -/
def firstSome {α β : Type} (f : α → Option β) : List α → Option β
  | [] => none
  | a :: rest =>
    match f a with
    | some b => some b
    | none => firstSome f rest

/-- The inner entry loop of lookup's plural stage: fetch each duplicate,
skip failed fetches and invalid transformations, return the first
validated entry annotated. -/
def pluralTryEntries (env : Env) (nw : Str) : List IndexEntry → Option Result
  | [] => none
  | indexEntry :: rest =>
    match fetchEntry env indexEntry.offset indexEntry.length with
    | some entry =>
      if isValidPluralTransformation nw entry.headword entry.pos then
        some (annotInflected nw entry)
      else pluralTryEntries env nw rest
    | none => pluralTryEntries env nw rest

/-- The feminine-of-plural entry loop inside lookup's plural stage: the
validation runs against the plural candidate, the annotation against
the normalized word. -/
def pluralFemTryEntries (env : Env) (nw candidate : Str) : List IndexEntry → Option Result
  | [] => none
  | indexEntry :: rest =>
    match fetchEntry env indexEntry.offset indexEntry.length with
    | some entry =>
      if isValidFeminineTransformation candidate entry.headword entry.pos entry.gender then
        some (annotInflectedFem nw entry)
      else pluralFemTryEntries env nw candidate rest
    | none => pluralFemTryEntries env nw candidate rest

/-- Step 4 of lookup: the plural heuristic over all plural candidates,
with the feminine-of-plural subchain for candidates ending in e. -/
def pluralStage (env : Env) (cache : Option (List IndexEntry)) (nw : Str) : Option Result :=
  firstSome (fun candidate =>
    match pluralTryEntries env nw (binarySearchAll cache candidate) with
    | some r => some r
    | none =>
      if (st "e").isSuffixOf candidate then
        firstSome (fun masculineCandidate =>
          pluralFemTryEntries env nw candidate (binarySearchAll cache masculineCandidate))
          (getFeminineCandidates candidate)
      else none)
    (getPluralCandidates nw)

/-- The entry loop of lookup's feminine stage. -/
def femTryEntries (env : Env) (nw : Str) : List IndexEntry → Option Result
  | [] => none
  | indexEntry :: rest =>
    match fetchEntry env indexEntry.offset indexEntry.length with
    | some entry =>
      if isValidFeminineTransformation nw entry.headword entry.pos entry.gender then
        some (annotFeminine nw entry)
      else femTryEntries env nw rest
    | none => femTryEntries env nw rest

/-- Step 5 of lookup: the feminine heuristic over all feminine
candidates. -/
def feminineStage (env : Env) (cache : Option (List IndexEntry)) (nw : Str) : Option Result :=
  firstSome (fun candidate => femTryEntries env nw (binarySearchAll cache candidate))
    (getFeminineCandidates nw)

/-- The scan start of dict.js lookupMultiWord: binary search for the
lowercased first word; on a hit walk back to the first occurrence, on a
miss use the loop's final left (the insertion point).  An empty cache
skips the JavaScript loop (right starts at -1) leaving left at 0. -/
def mwStart (idx : List IndexEntry) (firstWordLower : Str) : Nat :=
  if idx.length = 0 then 0
  else
    match bsearchAux (hwAt idx) firstWordLower (idx.length + 1) 0 (idx.length - 1) with
    | (some foundIndex, _) => walkBack idx firstWordLower foundIndex
    | (none, left) => left

/-- The continue condition of the forward scan in lookupMultiWord: the
loop breaks at the first entry whose headword neither extends the first
word nor has it as first token. -/
def mwCont (firstWordLower : Str) (entry : IndexEntry) : Bool :=
  firstWordLower.isPrefixOf entry.headword ||
    (splitWs entry.headword).getD 0 [] == firstWordLower

/-- The candidate-collection condition of the forward scan: multi-word
entries whose first token is the first word, plus exact single-word
fallbacks. -/
def mwPush (firstWordLower : Str) (entry : IndexEntry) : Bool :=
  (decide ((splitWs entry.headword).length > 1) &&
    (splitWs entry.headword).getD 0 [] == firstWordLower) ||
    entry.headword == firstWordLower

/-- The candidate list collected by the forward scan of
lookupMultiWord. -/
def mwCandidates (idx : List IndexEntry) (firstWordLower : Str) : List IndexEntry :=
  ((idx.drop (mwStart idx firstWordLower)).takeWhile (mwCont firstWordLower)).filter
    (mwPush firstWordLower)

/-- The token list of the following text in lookupMultiWord: NFC,
lowercase, whitespace split, empty tokens removed. -/
def mwWords (followingText : Str) : List Str :=
  (splitWs (jsToLower (nfc followingText))).filter (fun w0 => decide (w0.length > 0))

/-- The longest-match fold step of lookupMultiWord: skip single-token
candidates, and take a candidate whose remaining tokens lead the
following text when it is strictly longer than the best so far. -/
def mwStep (words : List Str) (acc : Option IndexEntry × Nat) (candidate : IndexEntry) :
    Option IndexEntry × Nat :=
  let candidateWords := splitWs candidate.headword
  if candidateWords.length = 1 then acc
  else if (candidateWords.drop 1).isPrefixOf words then
    if decide (candidateWords.length > acc.2) then (some candidate, candidateWords.length)
    else acc
  else acc

/-- dict.js lookupMultiWord: locate the scan start by binary search
(first exact occurrence, or the final left insertion point), scan the
contiguous block of headwords extending the lowercased first word,
collect multi-word candidates (plus exact single-word fallbacks), then
return the fetched entry of the strictly-longest candidate whose
remaining tokens prefix the following text, annotated with the matched
token count. -/
def lookupMultiWord (env : Env) (idx : List IndexEntry) (firstWord followingText : Str) :
    Option Result :=
  let firstWordLower := jsToLower firstWord
  match (mwCandidates idx firstWordLower).foldl (mwStep (mwWords followingText))
      ((none : Option IndexEntry), 1) with
  | (some longestMatch, longestCount) =>
    if longestCount > 1 then
      match fetchEntry env longestMatch.offset longestMatch.length with
      | some entry => some { entry with matchedWords := some longestCount }
      | none => none
    else none
  | (none, _) => none

/-- dict.js lookupConjugation: guarded on the conjugation cache, binary
search then ranged fetch of the conjugation record. -/
def lookupConjugation (env : Env) (d : Dict) (conjugatedForm : Str) : Option ConjRecord :=
  match d.conjugationIndexCache with
  | none => none
  | some _ =>
    match binarySearchConjugation d.conjugationIndexCache conjugatedForm with
    | none => none
    | some indexEntry => fetchConjugationEntries env indexEntry.offset

/-- JavaScript String.prototype.includes: contiguous substring test. -/
def strIncludes (needle : Str) : Str → Bool
  | [] => needle.isEmpty
  | c :: rest => needle.isPrefixOf (c :: rest) || strIncludes needle rest

/-- The verb-preferring entry scan of dict.js lookupInfinitive. -/
def firstVerb (env : Env) : List IndexEntry → Option Result
  | [] => none
  | indexEntry :: rest =>
    match fetchEntry env indexEntry.offset indexEntry.length with
    | some entry =>
      if !entry.pos.isEmpty && (entry.pos == st "v" || strIncludes (st "verb") entry.pos) then
        some entry
      else firstVerb env rest
    | none => firstVerb env rest

/-- dict.js lookupInfinitive: all index entries of the NFC-lowercased
infinitive; prefer a verb entry, else fetch the first entry. -/
def lookupInfinitive (env : Env) (d : Dict) (infinitive : Str) : Option Result :=
  let normalizedInfinitive := jsToLower (nfc infinitive)
  match binarySearchAll d.indexCache normalizedInfinitive with
  | [] => none
  | first :: rest =>
    match firstVerb env (first :: rest) with
    | some entry => some entry
    | none => fetchEntry env first.offset first.length

/-- Fuel-driven worker for dict.js lookupConjugationWithHeuristics; the
recursion strips a contraction prefix of length at least 2 from a word
of length at least 3, so a fuel exceeding the word length never runs
out.  Acronyms are excluded entirely; the cascade is direct lookup,
feminine candidates for words in e, plural candidates (with the
feminine-of-plural subchain) for words in s, then the contraction
retry; a hit resolves the infinitive and augments its entry. -/
def lookupConjugationWithHeuristicsFuel (env : Env) (d : Dict) :
    Nat → Str → Option Result
  | 0, _ => none
  | fuel + 1, normalizedWord =>
    if isAcronym normalizedWord then none
    else
      let direct := lookupConjugation env d normalizedWord
      let afterFem :=
        match direct with
        | some r => some r
        | none =>
          if (st "e").isSuffixOf normalizedWord then
            firstSome (fun candidate => lookupConjugation env d candidate)
              (getFeminineCandidates normalizedWord)
          else none
      let afterPlural :=
        match afterFem with
        | some r => some r
        | none =>
          if (st "s").isSuffixOf normalizedWord then
            firstSome (fun candidate =>
              match lookupConjugation env d candidate with
              | some r => some r
              | none =>
                if (st "e").isSuffixOf candidate then
                  firstSome (fun mascCandidate => lookupConjugation env d mascCandidate)
                    (getFeminineCandidates candidate)
                else none)
              (getPluralCandidates normalizedWord)
          else none
      match afterPlural with
      | none =>
        match tryRemoveContraction normalizedWord with
        | some (_, rest) => lookupConjugationWithHeuristicsFuel env d fuel rest
        | none => none
      | some conjugationResult =>
        match lookupInfinitive env d conjugationResult.infinitive with
        | none => none
        | some infinitiveEntry =>
          let tenseInfo := formatTenseInfo conjugationResult.tenses conjugationResult.fullForm
          some
            { infinitiveEntry with
              searchedForm := some normalizedWord
              conjugationInfo := some conjugationResult
              inflectionNote := some (st "conjugated form of \"" ++
                conjugationResult.infinitive ++ st "\" (" ++ tenseInfo ++ st ")")
              pronunciation :=
                if conjugationResult.ipas.isEmpty then infinitiveEntry.pronunciation
                else some conjugationResult.ipas }

/-- dict.js lookupConjugationWithHeuristics. -/
def lookupConjugationWithHeuristics (env : Env) (d : Dict) (normalizedWord : Str) :
    Option Result :=
  lookupConjugationWithHeuristicsFuel env d (normalizedWord.length + 1) normalizedWord

/-- Fuel-driven worker for dict.js lookup; the contraction-stripping
recursion shortens the word by at least 2 while normalization never
lengthens it, so a fuel exceeding the word length never runs out.
A lookup on an unloaded cache first retries the load (here: reads
env.idx) and misses if that fails.  On an exact index hit whose entry
fetch fails while a conjugation exists, the JavaScript dereferences the
null entry and throws; that unreachable-by-claim state is modelled as a
miss. -/
def lookupFuel (env : Env) : Nat → Dict → Str → Str → Option Result
  | 0, _, _, _ => none
  | fuel + 1, d, word, followingText =>
    let cache :=
      match d.indexCache with
      | some c => some c
      | none => env.idx
    match cache with
    | none => none
    | some idx =>
      let d1 : Dict := { d with indexCache := some idx }
      let normalizedWord := normalizeWord word
      let multiWordResult :=
        if !(jsTrim followingText).isEmpty then
          lookupMultiWord env idx normalizedWord followingText
        else none
      match multiWordResult with
      | some r => some r
      | none =>
        let indexEntry := binarySearch (some idx) normalizedWord
        match (if indexEntry.isNone then pluralStage env (some idx) normalizedWord
               else none) with
        | some r => some r
        | none =>
          match (if indexEntry.isNone then feminineStage env (some idx) normalizedWord
                 else none) with
          | some r => some r
          | none =>
            let conjugationEntry := lookupConjugationWithHeuristics env d1 normalizedWord
            match indexEntry with
            | some ie =>
              match fetchEntry env ie.offset ie.length with
              | some entry =>
                match conjugationEntry with
                | some c =>
                  some
                    { c with
                      alternateDefinition := some
                        { atype := st "bilingual"
                          headword := entry.headword
                          pos := entry.pos
                          gender := entry.gender
                          pronunciation := entry.pronunciation
                          translations := entry.translations
                          definition := entry.definition } }
                | none => some entry
              | none => none
            | none =>
              match conjugationEntry with
              | some c => some c
              | none =>
                match tryRemoveContraction normalizedWord with
                | some (pfx, rest) =>
                  match lookupFuel env fuel d1 rest followingText with
                  | some decontractedEntry =>
                    some
                      { decontractedEntry with
                        contractionPfx := some pfx
                        originalSearched := some normalizedWord }
                  | none => none
                | none => none

/-- dict.js lookup: single best-match entry point. -/
def lookup (env : Env) (d : Dict) (word : Str) (followingText : Str) : Option Result :=
  lookupFuel env (word.length + 1) d word followingText

/-- The exact-stage collection loop of lookupAll and lookupAllBackup:
fetch every duplicate, keeping the successfully parsed ones. -/
def exactCollect (fetch : Nat → Nat → Option Result) : List IndexEntry → List Result
  | [] => []
  | indexEntry :: rest =>
    match fetch indexEntry.offset indexEntry.length with
    | some entry => entry :: exactCollect fetch rest
    | none => exactCollect fetch rest

/-- The plural-stage collection loop of lookupAll and lookupAllBackup:
keep every fetched entry passing isValidPluralTransformation, annotated
with annotInflected. -/
def pluralCollect (fetch : Nat → Nat → Option Result) (nw : Str) :
    List IndexEntry → List Result
  | [] => []
  | indexEntry :: rest =>
    match fetch indexEntry.offset indexEntry.length with
    | some entry =>
      if isValidPluralTransformation nw entry.headword entry.pos then
        annotInflected nw entry :: pluralCollect fetch nw rest
      else pluralCollect fetch nw rest
    | none => pluralCollect fetch nw rest

/-- The feminine-stage collection loop of lookupAll and
lookupAllBackup: keep every fetched entry whose gender field is m,
annotated with annotInflected (the gender is left unchanged). -/
def femCollect (fetch : Nat → Nat → Option Result) (nw : Str) :
    List IndexEntry → List Result
  | [] => []
  | indexEntry :: rest =>
    match fetch indexEntry.offset indexEntry.length with
    | some entry =>
      if entry.gender == st "m" then
        annotInflected nw entry :: femCollect fetch nw rest
      else femCollect fetch nw rest
    | none => femCollect fetch nw rest

/-- dict.js lookupAllBackup: exact, plural and feminine cascade against
the backup English index and resource; no contraction or conjugation
handling here. -/
def lookupAllBackup (env : Env) (d : Dict) (normalizedWord : Str) : List Result :=
  match d.backupIndexCache with
  | none => []
  | some _ =>
    let exact := exactCollect (fetchBackupEntry env)
      (binarySearchAllBackup d.backupIndexCache normalizedWord)
    if !exact.isEmpty then exact
    else
      match firstSome (fun candidate =>
          let es := pluralCollect (fetchBackupEntry env) normalizedWord
            (binarySearchAllBackup d.backupIndexCache candidate)
          if es.isEmpty then none else some es)
          (getPluralCandidates normalizedWord) with
      | some es => es
      | none =>
        match firstSome (fun candidate =>
            let es := femCollect (fetchBackupEntry env) normalizedWord
              (binarySearchAllBackup d.backupIndexCache candidate)
            if es.isEmpty then none else some es)
            (getFeminineCandidates normalizedWord) with
        | some es => es
        | none => []

/-- Fuel-driven worker for dict.js lookupAll, with the same fuel
argument as lookupFuel. -/
def lookupAllFuel (env : Env) : Nat → Dict → Str → Str → List Result
  | 0, _, _, _ => []
  | fuel + 1, d, word, followingText =>
    let cache :=
      match d.indexCache with
      | some c => some c
      | none => env.idx
    match cache with
    | none => []
    | some idx =>
      let d1 : Dict := { d with indexCache := some idx }
      let normalizedWord := normalizeWord word
      let multiWordResult :=
        if !(jsTrim followingText).isEmpty then
          lookupMultiWord env idx normalizedWord followingText
        else none
      match multiWordResult with
      | some r => [r]
      | none =>
        let exact := exactCollect (fetchEntry env)
          (binarySearchAll (some idx) normalizedWord)
        if !exact.isEmpty then exact
        else
          match firstSome (fun candidate =>
              let es := pluralCollect (fetchEntry env) normalizedWord
                (binarySearchAll (some idx) candidate)
              if es.isEmpty then none else some es)
              (getPluralCandidates normalizedWord) with
          | some es => es
          | none =>
            match firstSome (fun candidate =>
                let es := femCollect (fetchEntry env) normalizedWord
                  (binarySearchAll (some idx) candidate)
                if es.isEmpty then none else some es)
                (getFeminineCandidates normalizedWord) with
            | some es => es
            | none =>
              let decontracted :=
                match tryRemoveContraction normalizedWord with
                | some (_, rest) => lookupAllFuel env fuel d1 rest followingText
                | none => []
              if !decontracted.isEmpty then decontracted
              else
                if d.currentLanguage ≠ st "eng" ∧ d1.backupIndexCache.isSome then
                  let backupEntries := lookupAllBackup env d1 normalizedWord
                  if backupEntries.isEmpty then []
                  else backupEntries.map (fun e =>
                    { e with isBackup := true, backupLanguage := some d.currentLanguage })
                else []

/-- dict.js lookupAll: all-senses entry point. -/
def lookupAll (env : Env) (d : Dict) (word : Str) (followingText : Str) : List Result :=
  lookupAllFuel env (word.length + 1) d word followingText

/-- dict.js exists (renamed: exists is reserved in Lean): retry the
index load if unloaded, then binary search the raw input — no NFC and
no apostrophe conversion, only the acronym-aware casing applied inside
binarySearch. -/
def existsWord (env : Env) (d : Dict) (word : Str) : Bool :=
  let cache :=
    match d.indexCache with
    | some c => some c
    | none => env.idx
  (binarySearch cache word).isSome

/-- A default Result used only to project optional results in closed
statements. -/
def dRes : Result :=
  { headword := [], pos := [], gender := [], pronunciation := none,
    translations := [], definition := [] }

/-- An environment where every resource is unreachable. -/
def envNone : Env :=
  { idx := none, conjIdx := none, u8 := fun _ _ => none, conjU8 := fun _ _ => none,
    backupIdx := none, backupU8 := fun _ _ => none }

/-- A dictionary instance with nothing loaded. -/
def dictNone : Dict :=
  { currentLanguage := st "eng", indexCache := none,
    conjugationIndexCache := none, backupIndexCache := none }

/-- Index rows for the C1 counterexample: the noun porte and the verb
porter, sorted; the conjugation table knows the form portes. -/
def idxC1 : List IndexEntry := [⟨st "porte", 0, 30⟩, ⟨st "porter", 100, 40⟩]

/-- The C1 counterexample environment. -/
def envC1 : Env :=
  { idx := some idxC1
    conjIdx := some [⟨st "portes", 500⟩]
    u8 := fun o l =>
      if o = 0 ∧ l = 30 then some (st "porte\tn\tf\tpORt\tdoor\t")
      else if o = 100 ∧ l = 40 then some (st "porter\tv\t\tpORte\tto carry\t")
      else none
    conjU8 := fun o l =>
      if o = 500 ∧ l = 1024 then
        some (st "portes\tporter\tindicative;present\tpORt\ttu portes")
      else none
    backupIdx := none
    backupU8 := fun _ _ => none }

/-- The C1 counterexample dictionary state (everything loaded). -/
def dictC1 : Dict :=
  { currentLanguage := st "eng", indexCache := envC1.idx,
    conjugationIndexCache := envC1.conjIdx, backupIndexCache := none }

/-- Environment with the conjugable headword porte itself in the
conjugation table, used for the C1 witness: the exact match and the
conjugation coexist. -/
def envC1W : Env :=
  { envC1 with
    conjIdx := some [⟨st "porte", 600⟩]
    conjU8 := fun o l =>
      if o = 600 ∧ l = 1024 then
        some (st "porte\tporter\tindicative;present\tpORt\til porte")
      else none }

/-- Dictionary state matching envC1W. -/
def dictC1W : Dict :=
  { currentLanguage := st "eng", indexCache := envC1W.idx,
    conjugationIndexCache := envC1W.conjIdx, backupIndexCache := none }

/-- The alternateDefinition record built from a bilingual entry in the
combine step of lookup. -/
def mkAlt (fe : Result) : AltDef :=
  { atype := st "bilingual", headword := fe.headword, pos := fe.pos,
    gender := fe.gender, pronunciation := fe.pronunciation,
    translations := fe.translations, definition := fe.definition }

/-- The bilingual entry fetched for the C1 witness. -/
def c1wFe : Result := (fetchEntry envC1W 0 30).getD dRes

/-- The conjugation-augmented entry computed for the C1 witness. -/
def c1wConj : Result :=
  (lookupConjugationWithHeuristics envC1W { dictC1W with indexCache := some idxC1 }
    (normalizeWord (st "porte"))).getD dRes

/-- Index row for the C2 counterexample: a lowercase multi-word
headword est x. -/
def idxC2 : List IndexEntry := [⟨st "est x", 0, 20⟩]

/-- The C2 counterexample environment. -/
def envC2 : Env :=
  { idx := some idxC2
    conjIdx := none
    u8 := fun o l =>
      if o = 0 ∧ l = 20 then some (st "est x\tn\tm\t\teast thing\t") else none
    conjU8 := fun _ _ => none
    backupIdx := none
    backupU8 := fun _ _ => none }

/-- The C2 counterexample dictionary state. -/
def dictC2 : Dict :=
  { currentLanguage := st "eng", indexCache := envC2.idx,
    conjugationIndexCache := none, backupIndexCache := none }

/-- Index row for the C3 counterexample. -/
def idxC3 : List IndexEntry := [⟨st "heureux", 0, 30⟩]

/-- The C3 counterexample environment: heureux recorded with pos v and
gender m, so isValidFeminineTransformation would reject it while the
gender-only test of lookupAll accepts it. -/
def envC3 : Env :=
  { idx := some idxC3
    conjIdx := none
    u8 := fun o l =>
      if o = 0 ∧ l = 30 then some (st "heureux\tv\tm\terO\thappy\t") else none
    conjU8 := fun _ _ => none
    backupIdx := none
    backupU8 := fun _ _ => none }

/-- The C3 counterexample dictionary state. -/
def dictC3 : Dict :=
  { currentLanguage := st "eng", indexCache := envC3.idx,
    conjugationIndexCache := none, backupIndexCache := none }

/-- The entry fetched in the C3 scenario. -/
def c3Fe : Result := (fetchEntry envC3 0 30).getD dRes

/-- The headword aujourd’hui with the typographic apostrophe. -/
def c10Headword : Str := st "aujourd" ++ [apos] ++ st "hui"

/-- The same word typed with an ASCII apostrophe. -/
def c10Word : Str := st "aujourd" ++ [apos1] ++ st "hui"

/-- Index row for the C10 scenario. -/
def idxC10 : List IndexEntry := [⟨c10Headword, 0, 40⟩]

/-- The C10 environment. -/
def envC10 : Env :=
  { idx := some idxC10
    conjIdx := none
    u8 := fun o l =>
      if o = 0 ∧ l = 40 then some (c10Headword ++ st "\tadv\t\t\ttoday\t") else none
    conjU8 := fun _ _ => none
    backupIdx := none
    backupU8 := fun _ _ => none }

/-- The C10 dictionary state. -/
def dictC10 : Dict :=
  { currentLanguage := st "eng", indexCache := envC10.idx,
    conjugationIndexCache := none, backupIndexCache := none }

/-- A sorted index with a duplicated headword for the C5 witness. -/
def idxC5 : List IndexEntry :=
  [⟨st "a", 0, 1⟩, ⟨st "b", 10, 1⟩, ⟨st "b", 20, 1⟩, ⟨st "c", 30, 1⟩]

/-- Claim C4's matching condition: a multi-word entry whose first token
is the (lowercased) first word and whose remaining tokens lead the
following-text tokens. -/
def multiWordMatches (firstWordLower : Str) (words : List Str) (e : IndexEntry) : Bool :=
  decide ((splitWs e.headword).length > 1) &&
    ((splitWs e.headword).getD 0 [] == firstWordLower) &&
    ((splitWs e.headword).drop 1).isPrefixOf words

/-- Claim C4's selection step: strictly longer token count wins, first
encountered among ties. -/
def firstLongestStep (firstWordLower : Str) (words : List Str)
    (acc : Option IndexEntry × Nat) (e : IndexEntry) : Option IndexEntry × Nat :=
  if multiWordMatches firstWordLower words e &&
      decide ((splitWs e.headword).length > acc.2) then
    (some e, (splitWs e.headword).length)
  else acc

/-- Claim C4's wording of the multi-word selection: scan the whole
index in order, keeping the strictly longest matching entry. -/
def firstLongestMultiWord (idx : List IndexEntry) (firstWordLower : Str)
    (words : List Str) : Option IndexEntry × Nat :=
  idx.foldl (firstLongestStep firstWordLower words) (none, 1)

/-- Index row for the C4 counterexample: a multi-word headword whose
first token is the uppercase acronym EST. -/
def idxC4 : List IndexEntry := [⟨st "EST alpha", 0, 30⟩]

/-- The C4 counterexample environment. -/
def envC4 : Env :=
  { idx := some idxC4
    conjIdx := none
    u8 := fun o l =>
      if o = 0 ∧ l = 30 then some (st "EST alpha\tn\tm\t\teastern alpha\t") else none
    conjU8 := fun _ _ => none
    backupIdx := none
    backupU8 := fun _ _ => none }

/-- The C4 counterexample dictionary state. -/
def dictC4 : Dict :=
  { currentLanguage := st "eng", indexCache := envC4.idx,
    conjugationIndexCache := none, backupIndexCache := none }

/-- Sorted index for the C4 witness: pomme and the longer headword
pomme de terre. -/
def idxC4W : List IndexEntry :=
  [⟨st "pomme", 0, 20⟩, ⟨st "pomme de terre", 100, 40⟩]

/-- The C4 witness environment. -/
def envC4W : Env :=
  { idx := some idxC4W
    conjIdx := none
    u8 := fun o l =>
      if o = 0 ∧ l = 20 then some (st "pomme\tn\tf\t\tapple\t")
      else if o = 100 ∧ l = 40 then some (st "pomme de terre\tn\tf\t\tpotato\t")
      else none
    conjU8 := fun _ _ => none
    backupIdx := none
    backupU8 := fun _ _ => none }

/-- The C4 witness dictionary state. -/
def dictC4W : Dict :=
  { currentLanguage := st "eng", indexCache := envC4W.idx,
    conjugationIndexCache := none, backupIndexCache := none }

/-- The fetched pomme de terre entry of the C4 witness. -/
def c4wFe : Result := (fetchEntry envC4W 100 40).getD dRes

/-- Dropping a suffix from an append recovers the front part. -/
theorem jsDropEnd_append (y s : Str) : jsDropEnd s.length (y ++ s) = y := by
  unfold jsDropEnd
  rw [List.length_append, Nat.add_sub_cancel, List.take_left]

/-- A k-character suffix drop, rewritten through a longer known suffix
s = u ++ v with k = v.length: the result keeps u at the end. -/
theorem dropEnd_expand (w u v s : Str) (k : Nat) (hk : v.length = k) (hs : s = u ++ v)
    (h : s.isSuffixOf w = true) : jsDropEnd k w = jsDropEnd s.length w ++ u := by
  subst hs
  subst hk
  rcases List.isSuffixOf_iff_suffix.mp h with ⟨y, hy⟩
  have h1 : jsDropEnd v.length w = y ++ u := by
    rw [← hy, ← List.append_assoc]
    exact jsDropEnd_append (y ++ u) v
  have h2 : jsDropEnd (u ++ v).length w = y := by
    rw [← hy]
    exact jsDropEnd_append y (u ++ v)
  rw [h1, h2]

/-- Testing a suffix u on a word with its final segment e removed is the
same as testing u ++ e on the word itself, whenever e is known to be a
suffix. -/
theorem sfx_stem (w u s e : Str) (k : Nat) (hk : e.length = k) (hs : s = u ++ e)
    (he : e.isSuffixOf w = true) : u.isSuffixOf (jsDropEnd k w) = s.isSuffixOf w := by
  subst hs
  subst hk
  rcases List.isSuffixOf_iff_suffix.mp he with ⟨y, hy⟩
  have hd : jsDropEnd e.length w = y := by
    rw [← hy]
    exact jsDropEnd_append y e
  rw [hd, ← hy]
  have hiff : u <:+ y ↔ (u ++ e) <:+ (y ++ e) := by
    constructor
    · rintro ⟨t, ht⟩
      exact ⟨t, by rw [← List.append_assoc, ht]⟩
    · rintro ⟨t, ht⟩
      rw [← List.append_assoc] at ht
      exact ⟨t, List.append_cancel_right ht⟩
  rcases Bool.eq_false_or_eq_true (u.isSuffixOf y) with hb | hb
  all_goals rcases Bool.eq_false_or_eq_true ((u ++ e).isSuffixOf (y ++ e)) with hb2 | hb2
  all_goals rw [hb, hb2]
  · exfalso
    have h3 := List.isSuffixOf_iff_suffix.mpr (hiff.mp (List.isSuffixOf_iff_suffix.mp hb))
    rw [h3] at hb2
    simp at hb2
  · exfalso
    have h3 := List.isSuffixOf_iff_suffix.mpr (hiff.mpr (List.isSuffixOf_iff_suffix.mp hb2))
    rw [h3] at hb
    simp at hb

/-- Composing two suffix drops adds the dropped lengths. -/
theorem jsDropEnd_jsDropEnd (a b : Nat) (w : Str) :
    jsDropEnd a (jsDropEnd b w) = jsDropEnd (b + a) w := by
  simp only [jsDropEnd, List.take_take, List.length_take]
  congr 1
  omega

/-- C6: getPluralCandidates produces singular candidates in exactly the
claimed priority order (eaux→eau; aux→al, au, ail; eux→eu excluding
ieux; oux→ou; trailing s stripped), words shorter than 3 characters
yield none, and "chevaux" yields "cheval" before "chevau"/"chevail",
with "cheval" validating against pos "n". -/
theorem claim_C6 :
    (∀ w, getPluralCandidates w = pluralCandidatesSpec w) ∧
    getPluralCandidates (st "chevaux") = [st "cheval", st "chevau", st "chevail"] ∧
    isValidPluralTransformation (st "chevaux") (st "cheval") (st "n") = true := by
  refine ⟨?_, by decide, by decide⟩
  intro w
  unfold getPluralCandidates pluralCandidatesSpec
  by_cases hlen : w.length < 3
  · rw [if_pos hlen, if_pos hlen]
  · rw [if_neg hlen, if_neg hlen]
    have h5 : decide (w.length > 2) = true := decide_eq_true (by omega)
    have hs1 : (if (st "eaux").isSuffixOf w then [jsDropEnd 1 w] else []) =
        (if (st "eaux").isSuffixOf w then [jsDropEnd 4 w ++ st "eau"] else []) := by
      by_cases h : (st "eaux").isSuffixOf w = true
      · have hh := dropEnd_expand w (st "eau") (st "x") (st "eaux") 1 (by decide) (by decide) h
        rw [show (st "eaux").length = 4 from by decide] at hh
        rw [if_pos h, if_pos h, hh]
      · rw [if_neg h, if_neg h]
    have hs3 : (if (st "eux").isSuffixOf w && !((st "ieux").isSuffixOf w) then
          [jsDropEnd 1 w] else []) =
        (if (st "eux").isSuffixOf w && !((st "ieux").isSuffixOf w) then
          [jsDropEnd 3 w ++ st "eu"] else []) := by
      by_cases h : ((st "eux").isSuffixOf w && !((st "ieux").isSuffixOf w)) = true
      · have h1 := (Bool.and_eq_true _ _ |>.mp h).1
        have hh := dropEnd_expand w (st "eu") (st "x") (st "eux") 1 (by decide) (by decide) h1
        rw [show (st "eux").length = 3 from by decide] at hh
        rw [if_pos h, if_pos h, hh]
      · rw [if_neg h, if_neg h]
    have hs4 : (if (st "oux").isSuffixOf w then [jsDropEnd 1 w] else []) =
        (if (st "oux").isSuffixOf w then [jsDropEnd 3 w ++ st "ou"] else []) := by
      by_cases h : (st "oux").isSuffixOf w = true
      · have hh := dropEnd_expand w (st "ou") (st "x") (st "oux") 1 (by decide) (by decide) h
        rw [show (st "oux").length = 3 from by decide] at hh
        rw [if_pos h, if_pos h, hh]
      · rw [if_neg h, if_neg h]
    rw [hs1, hs3, hs4, h5, Bool.and_true]

/-- C7: getFeminineCandidates tests suffix patterns in the claimed
strict specificity order, each matched pattern terminal, for words
ending in e of length at least 3 (and yields nothing otherwise);
"heureuse" yields "heureux" as its only candidate, and
isValidFeminineTransformation("heureuse","heureux","adj","m") holds. -/
theorem claim_C7 :
    (∀ w, getFeminineCandidates w = feminineCandidatesSpec w) ∧
    getFeminineCandidates (st "heureuse") = [st "heureux"] ∧
    isValidFeminineTransformation (st "heureuse") (st "heureux") (st "adj") (st "m") = true := by
  refine ⟨?_, by decide, by decide⟩
  intro w
  unfold getFeminineCandidates feminineCandidatesSpec
  by_cases hguard : (!((st "e").isSuffixOf w) || decide (w.length < 3)) = true
  · rw [if_pos hguard, if_pos hguard]
  · rw [if_neg hguard, if_neg hguard]
    have he : (st "e").isSuffixOf w = true := by
      rcases Bool.eq_false_or_eq_true ((st "e").isSuffixOf w) with h | h
      · exact h
      · exfalso
        apply hguard
        rw [h]
        rfl
    show (if (st "ienn").isSuffixOf (jsDropEnd 1 w) then [jsDropEnd 1 (jsDropEnd 1 w)] else _) = _
    rw [sfx_stem w (st "ienn") (st "ienne") (st "e") 1 (by decide) (by decide) he,
        sfx_stem w (st "teus") (st "teuse") (st "e") 1 (by decide) (by decide) he,
        sfx_stem w (st "eus") (st "euse") (st "e") 1 (by decide) (by decide) he,
        sfx_stem w (st "ric") (st "rice") (st "e") 1 (by decide) (by decide) he,
        sfx_stem w (st "èr") (st "ère") (st "e") 1 (by decide) (by decide) he,
        sfx_stem w (st "ell") (st "elle") (st "e") 1 (by decide) (by decide) he,
        sfx_stem w (st "enn") (st "enne") (st "e") 1 (by decide) (by decide) he,
        sfx_stem w (st "onn") (st "onne") (st "e") 1 (by decide) (by decide) he,
        sfx_stem w (st "inn") (st "inne") (st "e") 1 (by decide) (by decide) he,
        sfx_stem w (st "ett") (st "ette") (st "e") 1 (by decide) (by decide) he,
        sfx_stem w (st "v") (st "ve") (st "e") 1 (by decide) (by decide) he,
        sfx_stem w (st "s") (st "se") (st "e") 1 (by decide) (by decide) he,
        sfx_stem w (st "qu") (st "que") (st "e") 1 (by decide) (by decide) he,
        sfx_stem w (st "ch") (st "che") (st "e") 1 (by decide) (by decide) he,
        sfx_stem w (st "gu") (st "gue") (st "e") 1 (by decide) (by decide) he]
    by_cases h1 : (st "ienne").isSuffixOf w = true
    · have hh := dropEnd_expand w (st "ien") (st "ne") (st "ienne") 2 (by decide) (by decide) h1
      rw [show (st "ienne").length = 5 from by decide] at hh
      rw [if_pos h1, if_pos h1, jsDropEnd_jsDropEnd, hh]
    · rw [if_neg h1, if_neg h1]

/-- C8: isAcronym holds exactly for all-uppercase words of length
greater than one containing an A-Z letter, or a contraction prefix
(qu’, l’, d’, c’, j’, m’, t’, n’, s’) followed immediately by a
non-empty all-uppercase letter sequence; in particular "EST" and
"l’EST" are acronyms while "est" is not. -/
theorem claim_C8 :
    (∀ w, isAcronym w = true ↔
      ((w.length > 1 ∧ w = jsToUpper w ∧ hasUpperAZ w = true) ∨
       ∃ p ∈ contractions, p.isPrefixOf w = true ∧ (w.drop p.length).length > 0 ∧
         w.drop p.length = jsToUpper (w.drop p.length) ∧
         hasUpperAZ (w.drop p.length) = true)) ∧
    isAcronym (st "EST") = true ∧
    isAcronym (st "l" ++ [apos] ++ st "EST") = true ∧
    isAcronym (st "est") = false := by
  refine ⟨?_, by decide, by decide, by decide⟩
  intro w
  unfold isAcronym
  simp only [Bool.or_eq_true, Bool.and_eq_true, decide_eq_true_eq, beq_iff_eq,
    List.any_eq_true]
  tauto

/-- Characters with equal code points are equal. -/
theorem charToNat_inj (a b : Char) (h : a.toNat = b.toNat) : a = b := by
  apply Char.ext
  unfold Char.toNat at h
  exact UInt32.ext h

/-- Connexity of the string order: two strings neither of which is
below the other are equal. -/
theorem strLt_conn : ∀ a b : Str, strLt a b = false → strLt b a = false → a = b
  | [], [], _, _ => rfl
  | [], _ :: _, h1, _ => by simp [strLt] at h1
  | _ :: _, [], _, h2 => by simp [strLt] at h2
  | a :: as, b :: bs, h1, h2 => by
    simp only [strLt] at h1 h2
    by_cases hab : a.toNat < b.toNat
    · rw [if_pos hab] at h1
      exact absurd h1 (by simp)
    · by_cases hba : b.toNat < a.toNat
      · rw [if_pos hba] at h2
        exact absurd h2 (by simp)
      · rw [if_neg hab, if_neg hba] at h1
        rw [if_neg hba, if_neg hab] at h2
        have hc : a = b := charToNat_inj a b (by omega)
        have := strLt_conn as bs h1 h2
        rw [hc, this]

/-- The midpoint of a nonempty interval stays left of its right end. -/
theorem mid_le_right (l r : Nat) (h : l ≤ r) : (l + r) / 2 ≤ r := by
  have h2 : l + r ≤ 2 * r := by omega
  have h3 : (l + r) / 2 ≤ 2 * r / 2 := Nat.div_le_div_right h2
  rw [Nat.mul_div_cancel_left r (by norm_num)] at h3
  exact h3

/-- The midpoint of a nonempty interval stays right of its left end. -/
theorem left_le_mid (l r : Nat) (h : l ≤ r) : l ≤ (l + r) / 2 := by
  have h2 : 2 * l ≤ l + r := by omega
  have h3 : 2 * l / 2 ≤ (l + r) / 2 := Nat.div_le_div_right h2
  rw [Nat.mul_div_cancel_left l (by norm_num)] at h3
  exact h3

/-- Soundness of the binary-search loop: a returned index lies in the
interval and carries the search term. -/
theorem bsearchAux_found (hw : Nat → Str) (term : Str) :
    ∀ fuel left right j, (bsearchAux hw term fuel left right).1 = some j →
      hw j = term ∧ left ≤ j ∧ j ≤ right := by
  intro fuel
  induction fuel with
  | zero => intro left right j h; simp [bsearchAux] at h
  | succ fuel ih =>
    intro left right j h
    unfold bsearchAux at h
    by_cases hlr : left ≤ right
    · rw [if_pos hlr] at h
      simp only at h
      by_cases heq : hw ((left + right) / 2) = term
      · rw [if_pos heq] at h
        simp only [Prod.fst] at h
        cases h
        exact ⟨heq, left_le_mid left right hlr, mid_le_right left right hlr⟩
      · rw [if_neg heq] at h
        by_cases hlt : strLt (hw ((left + right) / 2)) term = true
        · rw [if_pos hlt] at h
          obtain ⟨h1, h2, h3⟩ := ih _ _ _ h
          exact ⟨h1, le_trans (left_le_mid left right hlr) (by omega), h3⟩
        · rw [if_neg hlt] at h
          by_cases hm : (left + right) / 2 = 0
          · rw [if_pos hm] at h
            simp at h
          · rw [if_neg hm] at h
            obtain ⟨h1, h2, h3⟩ := ih _ _ _ h
            refine ⟨h1, h2, ?_⟩
            have := mid_le_right left right hlr
            omega
    · rw [if_neg hlr] at h
      simp at h

/-- Completeness of the binary-search loop on a sorted projection: if
the loop reports no match and had enough fuel, no index of the interval
carries the search term. -/
theorem bsearchAux_none (hw : Nat → Str) (term : Str) (n : Nat)
    (hsort : ∀ i j, i ≤ j → j < n → strLt (hw j) (hw i) = false) :
    ∀ fuel left right, right < n → right < fuel + left →
      (bsearchAux hw term fuel left right).1 = none →
      ∀ i, left ≤ i → i ≤ right → hw i ≠ term := by
  intro fuel
  induction fuel with
  | zero => intro left right _ hfuel _ i h1 h2; omega
  | succ fuel ih =>
    intro left right hn hfuel h i h1 h2
    unfold bsearchAux at h
    have hlr : left ≤ right := le_trans h1 h2
    rw [if_pos hlr] at h
    simp only at h
    set mid := (left + right) / 2 with hmid
    have hml := left_le_mid left right hlr
    have hmr := mid_le_right left right hlr
    by_cases heq : hw mid = term
    · rw [if_pos heq] at h
      simp at h
    · rw [if_neg heq] at h
      by_cases hlt : strLt (hw mid) term = true
      · rw [if_pos hlt] at h
        by_cases hi : mid + 1 ≤ i
        · exact ih (mid + 1) right hn (by omega) h i hi h2
        · intro habs
          have hs := hsort i mid (by omega) (by omega)
          rw [habs] at hs
          rw [hs] at hlt
          exact Bool.noConfusion hlt
      · rw [if_neg hlt] at h
        have hge : ∀ k, mid ≤ k → k < n → hw k ≠ term := by
          intro k hk hkn habs
          have hs := hsort mid k hk hkn
          rw [habs] at hs
          have := strLt_conn (hw mid) term (by
            rcases Bool.eq_false_or_eq_true (strLt (hw mid) term) with hh | hh
            · exact absurd hh hlt
            · exact hh) hs
          exact heq this
        by_cases hm : mid = 0
        · exact hge i (by omega) (by omega)
        · rw [if_neg hm] at h
          by_cases hi : i ≤ mid - 1
          · exact ih left (mid - 1) (by omega) (by omega) h i h1 hi
          · exact hge i (by omega) (by omega)

/-- The backwards scan never moves right. -/
theorem walkBack_le (idx : List IndexEntry) (term : Str) :
    ∀ s, walkBack idx term s ≤ s := by
  intro s
  induction s with
  | zero => simp [walkBack]
  | succ s ih =>
    unfold walkBack
    by_cases h : hwAt idx s = term
    · rw [if_pos h]
      omega
    · rw [if_neg h]

/-- Everything between the backwards-scan result and its starting index
carries the search term, provided the starting index does. -/
theorem walkBack_run (idx : List IndexEntry) (term : Str) :
    ∀ s, hwAt idx s = term →
      ∀ i, walkBack idx term s ≤ i → i ≤ s → hwAt idx i = term := by
  intro s
  induction s with
  | zero =>
    intro hs i h1 h2
    have hi0 : i = 0 := by omega
    rw [hi0]
    exact hs
  | succ s ih =>
    intro hs i h1 h2
    unfold walkBack at h1
    by_cases h : hwAt idx s = term
    · rw [if_pos h] at h1
      by_cases hi : i ≤ s
      · exact ih h i h1 hi
      · have : i = s + 1 := by omega
        rw [this]
        exact hs
    · rw [if_neg h] at h1
      have : i = s + 1 := by omega
      rw [this]
      exact hs

/-- The entry just before the backwards-scan result (when one exists)
does not carry the search term. -/
theorem walkBack_stop (idx : List IndexEntry) (term : Str) :
    ∀ s, walkBack idx term s = 0 ∨ hwAt idx (walkBack idx term s - 1) ≠ term := by
  intro s
  induction s with
  | zero => left; rfl
  | succ s ih =>
    unfold walkBack
    by_cases h : hwAt idx s = term
    · rw [if_pos h]
      exact ih
    · rw [if_neg h]
      right
      simpa using h

/-- getD through drop shifts the position. -/
theorem getD_drop {α : Type} (l : List α) (d : α) (n i : Nat) :
    (l.drop n).getD i d = l.getD (n + i) d := by
  simp [List.getD_eq_getElem?_getD, List.getElem?_drop]

/-- For a predicate that, once false at some position, stays false at
all later positions, filtering agrees with taking the leading true
segment. -/
theorem filter_eq_takeWhile {α : Type} (p : α → Bool) (d : α) :
    ∀ l : List α,
      (∀ k1 k2, k1 ≤ k2 → k2 < l.length → p (l.getD k1 d) = false →
        p (l.getD k2 d) = false) →
      l.filter p = l.takeWhile p := by
  intro l
  induction l with
  | nil => intro _; rfl
  | cons x xs ih =>
    intro h
    by_cases hx : p x = true
    · rw [List.filter_cons, List.takeWhile_cons, if_pos hx, hx]
      simp only
      congr 1
      apply ih
      intro k1 k2 hk hk2 hp
      have := h (k1 + 1) (k2 + 1) (by omega) (by simpa using hk2) (by simpa using hp)
      simpa using this
    · have hx' : p x = false := by
        rcases Bool.eq_false_or_eq_true (p x) with hh | hh
        · exact absurd hh hx
        · exact hh
      rw [List.filter_cons, List.takeWhile_cons, if_neg hx, hx']
      apply List.filter_eq_nil_iff.mpr
      intro a ha
      obtain ⟨i, hi, hei⟩ := List.mem_iff_getElem.mp ha
      have := h 0 (i + 1) (by omega) (by simpa using hi) (by simpa using hx')
      rw [List.getD_cons_succ, List.getD_eq_getElem xs d hi, hei] at this
      simp [this]

/-- C5: on a loaded index sorted by headword, binarySearchAll returns
exactly the entries whose headword equals the getSearchTerm form of the
query — the maximal consecutive run, in original order — and it
returns the empty sequence on an unloaded index. -/
theorem claim_C5 (idx : List IndexEntry) (w : Str)
    (hsort : ∀ i j, i ≤ j → j < idx.length →
      strLt (hwAt idx j) (hwAt idx i) = false) :
    binarySearchAll (some idx) w =
      idx.filter (fun e => decide (e.headword = getSearchTerm w)) ∧
    binarySearchAll none w = [] := by
  refine ⟨?_, rfl⟩
  unfold binarySearchAll
  simp only
  by_cases h0 : idx.length = 0
  · rw [if_pos h0]
    rw [List.length_eq_zero.mp h0]
    rfl
  · rw [if_neg h0]
    set term := getSearchTerm w with hterm
    cases hbs : (bsearchAux (hwAt idx) term (idx.length + 1) 0 (idx.length - 1)).1 with
    | none =>
      simp only
      symm
      apply List.filter_eq_nil_iff.mpr
      intro e he
      obtain ⟨i, hi, hei⟩ := List.mem_iff_getElem.mp he
      have hne := bsearchAux_none (hwAt idx) term idx.length hsort
        (idx.length + 1) 0 (idx.length - 1) (by omega) (by omega) hbs
        i (by omega) (by omega)
      rw [hwAt, List.getD_eq_getElem idx dIdx hi, hei] at hne
      simp [hne]
    | some j =>
      simp only
      obtain ⟨hj, _, hjr⟩ := bsearchAux_found (hwAt idx) term _ _ _ _ hbs
      have hjn : j < idx.length := by omega
      set a := walkBack idx term j with ha
      have haj : a ≤ j := walkBack_le idx term j
      have han : a < idx.length := by omega
      have hwa : hwAt idx a = term := walkBack_run idx term j hj a le_rfl haj
      have hbefore : ∀ i, i < a → hwAt idx i ≠ term := by
        intro i hia habs
        rcases walkBack_stop idx term j with h0a | hne
        · rw [← ha] at h0a
          omega
        · rw [← ha] at hne
          have hs1 := hsort i (a - 1) (by omega) (by omega)
          rw [habs] at hs1
          have hs2 := hsort (a - 1) a (by omega) han
          rw [hwa] at hs2
          exact hne (strLt_conn (hwAt idx (a - 1)) term hs1 hs2)
      have hstepA : idx.filter (fun e => decide (e.headword = term)) =
          (idx.drop a).filter (fun e => decide (e.headword = term)) := by
        conv =>
          lhs
          rw [← List.take_append_drop a idx]
        rw [List.filter_append]
        have : (idx.take a).filter (fun e => decide (e.headword = term)) = [] := by
          apply List.filter_eq_nil_iff.mpr
          intro e he
          obtain ⟨i, hi, hei⟩ := List.mem_iff_getElem.mp he
          have hia : i < a := by
            have := hi
            rw [List.length_take] at this
            omega
          have := hbefore i hia
          rw [hwAt, List.getD_eq_getElem idx dIdx (by omega)] at this
          rw [List.getElem_take] at hei
          rw [hei] at this
          simp [this]
        rw [this, List.nil_append]
      have hstepB : (idx.drop a).filter (fun e => decide (e.headword = term)) =
          (idx.drop a).takeWhile (fun e => decide (e.headword = term)) := by
        apply filter_eq_takeWhile _ dIdx
        intro k1 k2 hk hk2 hp
        rw [getD_drop] at hp ⊢
        rw [List.length_drop] at hk2
        have hk2n : a + k2 < idx.length := by omega
        have hk1n : a + k1 < idx.length := by omega
        have hne1 : hwAt idx (a + k1) ≠ term := by
          intro habs
          unfold hwAt at habs
          rw [habs] at hp
          simp at hp
        have hlt1 : strLt term (hwAt idx (a + k1)) = true := by
          have hs1 := hsort a (a + k1) (by omega) hk1n
          rw [hwa] at hs1
          rcases Bool.eq_false_or_eq_true (strLt term (hwAt idx (a + k1))) with hh | hh
          · exact hh
          · exact absurd (strLt_conn (hwAt idx (a + k1)) term hs1 hh).symm
              (fun hx => hne1 hx.symm)
        rcases Bool.eq_false_or_eq_true
            (decide ((idx.getD (a + k2) dIdx).headword = term) : Bool) with hh | hh
        · exfalso
          have habs : hwAt idx (a + k2) = term := by
            rw [hwAt]
            exact of_decide_eq_true hh
          have hs2 := hsort (a + k1) (a + k2) (by omega) hk2n
          rw [habs] at hs2
          rw [hs2] at hlt1
          exact Bool.noConfusion hlt1
        · exact hh
      rw [hstepA, hstepB]

/-- C1 counterexample: for the word portes the plural heuristic
produces the bilingual entry porte and a conjugation entry for portes
exists, yet lookup returns the heuristic bilingual entry untouched —
no conjugation check is made (conjugationInfo and alternateDefinition
stay empty), contradicting the claim that the conjugation entry would
be primary with the bilingual entry attached. -/
theorem claim_C1_cex :
    (lookup envC1 dictC1 (st "portes") []).isSome = true ∧
    ((lookup envC1 dictC1 (st "portes") []).getD dRes).headword = st "porte" ∧
    ((lookup envC1 dictC1 (st "portes") []).getD dRes).inflectionNote =
      some (st "plural of \"porte\" [pORt]") ∧
    ((lookup envC1 dictC1 (st "portes") []).getD dRes).conjugationInfo = none ∧
    ((lookup envC1 dictC1 (st "portes") []).getD dRes).alternateDefinition = none ∧
    (lookupConjugationWithHeuristics envC1 dictC1 (st "portes")).isSome = true := by
  refine ⟨by decide, by decide, by decide, by decide, by decide, by decide⟩

/-- C1 amended: the conjugation check is attempted when the exact-match
stage found an entry (the plural and feminine stages return their entry
at once, without it); whenever an exact bilingual entry and a
conjugation entry both exist, the returned result is the conjugation
entry with the bilingual entry attached as alternateDefinition. -/
theorem claim_C1 (env : Env) (d : Dict) (idx : List IndexEntry) (w : Str)
    (ie : IndexEntry) (fe : Result) (c : Result)
    (hc : d.indexCache = some idx)
    (hie : binarySearch (some idx) (normalizeWord w) = some ie)
    (hfe : fetchEntry env ie.offset ie.length = some fe)
    (hconj : lookupConjugationWithHeuristics env { d with indexCache := some idx }
      (normalizeWord w) = some c) :
    lookup env d w [] = some { c with alternateDefinition := some (mkAlt fe) } := by
  unfold lookup lookupFuel
  rw [hc]
  simp only [hie, Option.isNone_some, Bool.false_eq_true, if_false, hconj, hfe]
  rfl

/-- C1 witness: on a concrete dictionary where porte is both a headword
and a conjugated form, lookup returns the conjugation entry with the
bilingual entry attached. -/
theorem claim_C1_witness :
    lookup envC1W dictC1W (st "porte") [] =
      some { c1wConj with alternateDefinition := some (mkAlt c1wFe) } :=
  claim_C1 envC1W dictC1W idxC1 (st "porte") ⟨st "porte", 0, 30⟩ c1wFe c1wConj
    (by decide) (by decide) (by decide) (by decide)

/-- C2 counterexample: the acronym EST with following text x is matched
by the multi-word search against the lowercase headword est x, because
lookupMultiWord lowercases the first word unconditionally instead of
routing through getSearchTerm. -/
theorem claim_C2_cex :
    isAcronym (st "EST") = true ∧
    getSearchTerm (st "EST") = st "EST" ∧
    (lookup envC2 dictC2 (st "EST") (st "x")).isSome = true ∧
    ((lookup envC2 dictC2 (st "EST") (st "x")).getD dRes).headword = st "est x" ∧
    ((lookup envC2 dictC2 (st "EST") (st "x")).getD dRes).matchedWords = some 2 := by
  refine ⟨by decide, by decide, by decide, by decide, by decide⟩

/-- C2 amended: the single-word index lookups (exact match and the
duplicate-collecting search used by the heuristic stages) only ever
match an entry whose headword equals the getSearchTerm form of the
query, and acronyms are excluded from conjugation lookup entirely;
the multi-word search of step 2, however, lowercases the first word
unconditionally (see the counterexample). -/
theorem claim_C2 :
    (∀ idx w e, binarySearch (some idx) w = some e → e.headword = getSearchTerm w) ∧
    (∀ idx w e, e ∈ binarySearchAll (some idx) w → e.headword = getSearchTerm w) ∧
    (∀ env d nw, isAcronym nw = true →
      lookupConjugationWithHeuristics env d nw = none) := by
  refine ⟨?_, ?_, ?_⟩
  · intro idx w e h
    simp only [binarySearch] at h
    by_cases h0 : idx.length = 0
    · rw [if_pos h0] at h
      exact absurd h (by simp)
    · rw [if_neg h0] at h
      cases hbs : (bsearchAux (hwAt idx) (getSearchTerm w)
          (idx.length + 1) 0 (idx.length - 1)).1 with
      | none =>
        rw [hbs] at h
        exact absurd h (by simp)
      | some i =>
        rw [hbs] at h
        simp only [Option.some_inj] at h
        obtain ⟨hh, _, _⟩ := bsearchAux_found _ _ _ _ _ _ hbs
        rw [← h]
        exact hh
  · intro idx w e h
    simp only [binarySearchAll] at h
    by_cases h0 : idx.length = 0
    · rw [if_pos h0] at h
      simp at h
    · rw [if_neg h0] at h
      cases hbs : (bsearchAux (hwAt idx) (getSearchTerm w)
          (idx.length + 1) 0 (idx.length - 1)).1 with
      | none =>
        rw [hbs] at h
        simp at h
      | some i =>
        rw [hbs] at h
        simp only [] at h
        have h2 := List.mem_takeWhile_imp h
        simpa using h2
  · intro env d nw h
    unfold lookupConjugationWithHeuristics lookupConjugationWithHeuristicsFuel
    rw [if_pos h]

/-- C2 witness: the general parts applied at concrete inputs. -/
theorem claim_C2_witness :
    (⟨st "porte", 0, 30⟩ : IndexEntry).headword = getSearchTerm (st "porte") ∧
    (⟨st "porte", 0, 30⟩ : IndexEntry).headword = getSearchTerm (st "Porte") ∧
    lookupConjugationWithHeuristics envC1 dictC1 (st "EST") = none :=
  ⟨claim_C2.1 idxC1 (st "porte") ⟨st "porte", 0, 30⟩ (by decide),
   claim_C2.2.1 idxC1 (st "Porte") ⟨st "porte", 0, 30⟩ (by decide),
   claim_C2.2.2 envC1 dictC1 (st "EST") (by decide)⟩

/-- C3 counterexample: lookupAll resolves heureuse through the feminine
stage to an entry that fails isValidFeminineTransformation (pos v),
keeps gender m instead of being forced to f, and carries the generic
note "inflected form of ..." instead of "feminine of ...". -/
theorem claim_C3_cex :
    (lookupAll envC3 dictC3 (st "heureuse") []).length = 1 ∧
    ((lookupAll envC3 dictC3 (st "heureuse") []).getD 0 dRes).gender = st "m" ∧
    ((lookupAll envC3 dictC3 (st "heureuse") []).getD 0 dRes).inflectionNote =
      some (st "inflected form of \"heureux\" [erO]") ∧
    isValidFeminineTransformation (st "heureuse") (st "heureux") (st "v") (st "m") = false := by
  refine ⟨by decide, by decide, by decide, by decide⟩

/-- C3 amended: every entry the feminine stage of lookupAll returns was
accepted solely because the fetched entry's gender field is m; it is
returned as annotInflected of that entry — gender unchanged, generic
getInflectionNote annotation — with no isValidFeminineTransformation
check and no forced feminine gender. -/
theorem claim_C3 (fetch : Nat → Nat → Option Result) (nw : Str)
    (ies : List IndexEntry) (e : Result) (h : e ∈ femCollect fetch nw ies) :
    ∃ ie ∈ ies, ∃ fe, fetch ie.offset ie.length = some fe ∧
      fe.gender = st "m" ∧ e = annotInflected nw fe := by
  induction ies with
  | nil => simp [femCollect] at h
  | cons ie rest ih =>
    unfold femCollect at h
    cases hf : fetch ie.offset ie.length with
    | none =>
      rw [hf] at h
      obtain ⟨ie2, hmem, fe, h1, h2, h3⟩ := ih h
      exact ⟨ie2, List.mem_cons_of_mem ie hmem, fe, h1, h2, h3⟩
    | some fe =>
      rw [hf] at h
      simp only [] at h
      by_cases hg : (fe.gender == st "m") = true
      · rw [if_pos hg] at h
        rcases List.mem_cons.mp h with he | he
        · exact ⟨ie, List.mem_cons_self ie rest, fe, hf, eq_of_beq hg, he⟩
        · obtain ⟨ie2, hmem, fe2, h1, h2, h3⟩ := ih he
          exact ⟨ie2, List.mem_cons_of_mem ie hmem, fe2, h1, h2, h3⟩
      · rw [if_neg hg] at h
        obtain ⟨ie2, hmem, fe2, h1, h2, h3⟩ := ih h
        exact ⟨ie2, List.mem_cons_of_mem ie hmem, fe2, h1, h2, h3⟩

/-- C3 witness: the amended statement applied to the heureuse
scenario. -/
theorem claim_C3_witness :
    ∃ ie ∈ idxC3, ∃ fe, fetchEntry envC3 ie.offset ie.length = some fe ∧
      fe.gender = st "m" ∧ annotInflected (st "heureuse") c3Fe = annotInflected (st "heureuse") fe :=
  claim_C3 (fetchEntry envC3) (st "heureuse") idxC3
    (annotInflected (st "heureuse") c3Fe) (by decide)

/-- C9: failures are absorbed locally — a lookup with the index
unloaded whose reload also fails returns none rather than raising, and
a failed entry fetch skips just that index entry, the heuristic entry
loops continuing with the remaining candidates. -/
theorem claim_C9 :
    (∀ env d w ft, d.indexCache = none → env.idx = none →
      lookup env d w ft = none) ∧
    (∀ env nw ie rest, env.u8 ie.offset ie.length = none →
      pluralTryEntries env nw (ie :: rest) = pluralTryEntries env nw rest) ∧
    (∀ env nw ie rest, env.u8 ie.offset ie.length = none →
      femTryEntries env nw (ie :: rest) = femTryEntries env nw rest) := by
  refine ⟨?_, ?_, ?_⟩
  · intro env d w ft h1 h2
    unfold lookup lookupFuel
    rw [h1, h2]
  · intro env nw ie rest h
    rw [pluralTryEntries]
    simp only [fetchEntry, h]
  · intro env nw ie rest h
    rw [femTryEntries]
    simp only [fetchEntry, h]

/-- C9 witness: the three parts applied to a fully unreachable
environment. -/
theorem claim_C9_witness :
    lookup envNone dictNone (st "mot") [] = none ∧
    pluralTryEntries envNone (st "portes") [⟨st "porte", 0, 30⟩] =
      pluralTryEntries envNone (st "portes") [] ∧
    femTryEntries envNone (st "heureuse") [⟨st "heureux", 0, 30⟩] =
      femTryEntries envNone (st "heureuse") [] :=
  ⟨claim_C9.1 envNone dictNone (st "mot") [] rfl rfl,
   claim_C9.2.1 envNone (st "portes") ⟨st "porte", 0, 30⟩ [] rfl,
   claim_C9.2.2 envNone (st "heureuse") ⟨st "heureux", 0, 30⟩ [] rfl⟩

/-- C10: existsWord binary-searches the raw input — any hit carries
exactly the getSearchTerm form of the raw word, with no NFC and no
apostrophe conversion — and on the concrete input aujourd'hui (ASCII
apostrophe) existsWord is false while lookup resolves the same input to
the exact entry for aujourd’hui. -/
theorem claim_C10 :
    (∀ env d idx w, d.indexCache = some idx → existsWord env d w = true →
      ∃ e ∈ idx, e.headword = getSearchTerm w) ∧
    existsWord envC10 dictC10 c10Word = false ∧
    (lookup envC10 dictC10 c10Word []).isSome = true ∧
    ((lookup envC10 dictC10 c10Word []).getD dRes).headword = c10Headword := by
  refine ⟨?_, by decide, by decide, by decide⟩
  intro env d idx w hc h
  unfold existsWord at h
  rw [hc] at h
  simp only [binarySearch] at h
  by_cases h0 : idx.length = 0
  · rw [if_pos h0] at h
    simp at h
  · rw [if_neg h0] at h
    cases hbs : (bsearchAux (hwAt idx) (getSearchTerm w)
        (idx.length + 1) 0 (idx.length - 1)).1 with
    | none =>
      rw [hbs] at h
      simp at h
    | some i =>
      obtain ⟨hh, _, hir⟩ := bsearchAux_found _ _ _ _ _ _ hbs
      have hin : i < idx.length := by omega
      refine ⟨idx.getD i dIdx, ?_, hh⟩
      rw [List.getD_eq_getElem idx dIdx hin]
      exact List.getElem_mem hin

/-- C10 witness: the general part applied to the curly-apostrophe form
of the same word, which existsWord does find. -/
theorem claim_C10_witness :
    ∃ e ∈ idxC10, e.headword = getSearchTerm c10Headword :=
  claim_C10.1 envC10 dictC10 idxC10 c10Headword (by decide) (by decide)

/-- C5 witness: the filter characterisation applied to a concrete
sorted index with a duplicate run. -/
theorem claim_C5_witness :
    binarySearchAll (some idxC5) (st "b") =
      idxC5.filter (fun e => decide (e.headword = getSearchTerm (st "b"))) ∧
    binarySearchAll none (st "b") = [] :=
  claim_C5 idxC5 (st "b") (by
    intro i j hij hj
    have hj4 : j < 4 := by simpa [idxC5] using hj
    interval_cases j <;> interval_cases i <;> decide)

/-- The string order is irreflexive. -/
theorem strLt_irrefl : ∀ a : Str, strLt a a = false
  | [] => rfl
  | c :: cs => by
    unfold strLt
    rw [if_neg (lt_irrefl c.toNat), if_neg (lt_irrefl c.toNat)]
    exact strLt_irrefl cs

/-- From a ≤ b and b < c conclude a < c on the string order. -/
theorem strLt_of_le_of_lt : ∀ a b c : Str, strLt b a = false → strLt b c = true →
    strLt a c = true
  | a, [], c, h1, h2 => by
    cases a with
    | nil => exact h2
    | cons y ys => simp [strLt] at h1
  | a, _ :: _, [], _, h2 => by simp [strLt] at h2
  | [], _ :: _, _ :: _, _, _ => rfl
  | y :: ys, x :: xs, z :: zs, h1, h2 => by
    unfold strLt at h1 h2 ⊢
    by_cases hxy : x.toNat < y.toNat
    · rw [if_pos hxy] at h1
      exact absurd h1 (by simp)
    · rw [if_neg hxy] at h1
      by_cases hxz : x.toNat < z.toNat
      · by_cases hyx : y.toNat < x.toNat
        · rw [if_pos (by omega : y.toNat < z.toNat)]
        · rw [if_pos (by omega : y.toNat < z.toNat)]
      · rw [if_neg hxz] at h2
        by_cases hzx : z.toNat < x.toNat
        · rw [if_pos hzx] at h2
          exact absurd h2 (by simp)
        · rw [if_neg hzx] at h2
          by_cases hyx : y.toNat < x.toNat
          · rw [if_pos (by omega : y.toNat < z.toNat)]
          · rw [if_neg hyx] at h1
            rw [if_neg (by omega : ¬ y.toNat < z.toNat),
              if_neg (by omega : ¬ z.toNat < y.toNat)]
            exact strLt_of_le_of_lt ys xs zs h1 h2

/-- From a < b and b ≤ c conclude a < c on the string order. -/
theorem strLt_of_lt_of_le : ∀ a b c : Str, strLt a b = true → strLt c b = false →
    strLt a c = true
  | a, [], c, h1, _ => by cases a <;> simp [strLt] at h1
  | [], _ :: _, [], _, h2 => by simp [strLt] at h2
  | [], _ :: _, _ :: _, _, _ => rfl
  | x :: xs, y :: ys, c, h1, h2 => by
    cases c with
    | nil => simp [strLt] at h2
    | cons z zs =>
      unfold strLt at h1 h2 ⊢
      by_cases hzy : z.toNat < y.toNat
      · rw [if_pos hzy] at h2
        exact absurd h2 (by simp)
      · rw [if_neg hzy] at h2
        by_cases hxy : x.toNat < y.toNat
        · by_cases hyz : y.toNat < z.toNat
          · rw [if_pos (by omega : x.toNat < z.toNat)]
          · rw [if_pos (by omega : x.toNat < z.toNat)]
        · rw [if_neg hxy] at h1
          by_cases hyx : y.toNat < x.toNat
          · rw [if_pos hyx] at h1
            exact absurd h1 (by simp)
          · rw [if_neg hyx] at h1
            by_cases hyz : y.toNat < z.toNat
            · rw [if_pos (by omega : x.toNat < z.toNat)]
            · rw [if_neg hyz] at h2
              rw [if_neg (by omega : ¬ x.toNat < z.toNat),
                if_neg (by omega : ¬ z.toNat < x.toNat)]
              exact strLt_of_lt_of_le xs ys zs h1 h2

/-- The string order is asymmetric. -/
theorem strLt_asymm : ∀ a b : Str, strLt a b = true → strLt b a = false
  | [], [], h => by simp [strLt] at h
  | [], _ :: _, _ => rfl
  | _ :: _, [], h => by simp [strLt] at h
  | x :: xs, y :: ys, h => by
    unfold strLt at h ⊢
    by_cases hxy : x.toNat < y.toNat
    · rw [if_neg (by omega : ¬ y.toNat < x.toNat), if_pos hxy]
    · rw [if_neg hxy] at h
      by_cases hyx : y.toNat < x.toNat
      · rw [if_pos hyx] at h
        exact absurd h (by simp)
      · rw [if_neg hyx] at h
        rw [if_neg hyx, if_neg hxy]
        exact strLt_asymm xs ys h

/-- A proper prefix is strictly below its extension. -/
theorem strLt_proper_prefix : ∀ (p : Str) (c : Char) (r : Str),
    strLt p (p ++ c :: r) = true
  | [], _, _ => rfl
  | a :: as, c, r => by
    show strLt (a :: as) (a :: (as ++ c :: r)) = true
    simp only [strLt]
    rw [if_neg (lt_irrefl a.toNat), if_neg (lt_irrefl a.toNat)]
    exact strLt_proper_prefix as c r

/-- Prefix interval property of the string order: a string lying
between two strings sharing a prefix also carries that prefix. -/
theorem prefixInterval : ∀ (p u v w : Str), strLt v u = false → strLt w v = false →
    p.isPrefixOf u = true → p.isPrefixOf w = true → p.isPrefixOf v = true
  | [], _, _, _, _, _, _, _ => List.isPrefixOf_nil_left
  | c :: p', u, v, w, huv, hwv, hu, hw => by
    cases u with
    | nil => simp [List.isPrefixOf] at hu
    | cons uc u' =>
      cases w with
      | nil => simp [List.isPrefixOf] at hw
      | cons wc w' =>
        simp only [List.isPrefixOf, Bool.and_eq_true, beq_iff_eq] at hu hw
        cases v with
        | nil =>
          simp [strLt] at huv
        | cons vc v' =>
          simp only [strLt] at huv hwv
          rw [← hu.1] at huv
          rw [← hw.1] at hwv
          by_cases hvc : vc.toNat < c.toNat
          · rw [if_pos hvc] at huv
            exact absurd huv (by simp)
          · rw [if_neg hvc] at huv
            by_cases hcv : c.toNat < vc.toNat
            · rw [if_pos hcv] at hwv
              exact absurd hwv (by simp)
            · rw [if_neg hcv, if_neg hvc] at hwv
              rw [if_neg hcv] at huv
              have hvcc : vc = c := charToNat_inj vc c (by omega)
              simp only [List.isPrefixOf, hvcc, Bool.and_eq_true, beq_iff_eq, true_and]
              exact prefixInterval p' u' v' w' huv hwv hu.2 hw.2

/-- Full exit invariant of the binary-search loop on a sorted
projection: when the loop reports no match, every index below the
final left is strictly below the term and every index at or above it is
strictly above the term. -/
theorem bsearchAux_none_split (hw : Nat → Str) (term : Str) (n : Nat)
    (hsort : ∀ i j, i ≤ j → j < n → strLt (hw j) (hw i) = false) :
    ∀ fuel left right lf, right < n → right < fuel + left →
      (∀ i, i < left → strLt (hw i) term = true) →
      (∀ i, right < i → i < n → strLt term (hw i) = true) →
      bsearchAux hw term fuel left right = (none, lf) →
      (∀ i, i < lf → strLt (hw i) term = true) ∧
      (∀ i, lf ≤ i → i < n → strLt term (hw i) = true) := by
  intro fuel
  induction fuel with
  | zero =>
    intro left right lf _ hfuel hl hr h
    unfold bsearchAux at h
    cases h
    refine ⟨hl, ?_⟩
    intro i hi hin
    exact hr i (by omega) hin
  | succ fuel ih =>
    intro left right lf hn hfuel hl hr h
    unfold bsearchAux at h
    by_cases hlr : left ≤ right
    · rw [if_pos hlr] at h
      simp only at h
      set mid := (left + right) / 2 with hmid
      have hml := left_le_mid left right hlr
      have hmr := mid_le_right left right hlr
      by_cases heq : hw mid = term
      · rw [if_pos heq] at h
        exact absurd h (by simp)
      · rw [if_neg heq] at h
        by_cases hlt : strLt (hw mid) term = true
        · rw [if_pos hlt] at h
          refine ih (mid + 1) right lf hn (by omega) ?_ hr h
          intro i hi
          by_cases hil : i < left
          · exact hl i hil
          · exact strLt_of_le_of_lt (hw i) (hw mid) term
              (hsort i mid (by omega) (by omega)) hlt
        · rw [if_neg hlt] at h
          have hgt : strLt term (hw mid) = true := by
            rcases Bool.eq_false_or_eq_true (strLt term (hw mid)) with hh | hh
            · exact hh
            · exact absurd (strLt_conn (hw mid) term (by
                rcases Bool.eq_false_or_eq_true (strLt (hw mid) term) with h2 | h2
                · exact absurd h2 hlt
                · exact h2) hh) heq
          have habove : ∀ i, mid ≤ i → i < n → strLt term (hw i) = true := by
            intro i hi hin
            exact strLt_of_lt_of_le term (hw mid) (hw i) hgt
              (hsort mid i hi hin)
          by_cases hm : mid = 0
          · rw [if_pos hm] at h
            cases h
            refine ⟨hl, ?_⟩
            intro i hi hin
            exact habove i (by omega) hin
          · rw [if_neg hm] at h
            refine ih left (mid - 1) lf (by omega) (by omega) hl ?_ h
            intro i hi hin
            exact habove i (by omega) hin
    · rw [if_neg hlr] at h
      cases h
      refine ⟨hl, ?_⟩
      intro i hi hin
      exact hr i (by omega) hin

/-- splitWs never returns an empty token list. -/
theorem splitWs_ne_nil (s : Str) : splitWs s ≠ [] := by
  unfold splitWs splitWsFuel
  cases h : s.dropWhile (fun c => !(isJsSpace c)) <;> simp [h]

/-- The first token of splitWs is the leading non-whitespace run. -/
theorem splitWs_head (s : Str) :
    (splitWs s).getD 0 [] = s.takeWhile (fun c => !(isJsSpace c)) := by
  unfold splitWs splitWsFuel
  cases h : s.dropWhile (fun c => !(isJsSpace c)) <;> simp [h]

/-- More than one token forces a whitespace character in the string. -/
theorem splitWs_gt1 (s : Str) (h : (splitWs s).length > 1) :
    s.dropWhile (fun c => !(isJsSpace c)) ≠ [] := by
  intro habs
  unfold splitWs splitWsFuel at h
  simp [habs] at h

/-- A whitespace-free string is a single token. -/
theorem splitWs_noWs (s : Str) (h : s.all (fun c => !(isJsSpace c)) = true) :
    splitWs s = [s] := by
  have hd : s.dropWhile (fun c => !(isJsSpace c)) = [] := by
    rw [List.dropWhile_eq_nil_iff]
    intro x hx
    exact List.all_eq_true.mp h x hx
  have ht : s.takeWhile (fun c => !(isJsSpace c)) = s := by
    have h2 : s.takeWhile (fun c => !(isJsSpace c)) ++ s.dropWhile (fun c => !(isJsSpace c)) = s :=
      List.takeWhile_append_dropWhile _ s
    rw [hd, List.append_nil] at h2
    exact h2
  unfold splitWs splitWsFuel
  simp [hd, ht]

/-- Folds with pointwise-equal step functions on the list's members
agree. -/
theorem foldl_congr_mem {α β : Type} (f g : β → α → β) :
    ∀ (l : List α), (∀ acc x, x ∈ l → f acc x = g acc x) →
      ∀ a, l.foldl f a = l.foldl g a
  | [], _, _ => rfl
  | x :: xs, h, a => by
    simp only [List.foldl_cons]
    rw [h a x (List.mem_cons_self x xs)]
    exact foldl_congr_mem f g xs (fun acc y hy => h acc y (List.mem_cons_of_mem x hy)) _

/-- Elements on which the step function is the identity can be filtered
out of a fold. -/
theorem foldl_skip {α β : Type} (f : β → α → β) (q : α → Bool)
    (h : ∀ acc x, q x = false → f acc x = acc) :
    ∀ (l : List α) (a : β), l.foldl f a = (l.filter q).foldl f a
  | [], _ => rfl
  | x :: xs, a => by
    simp only [List.foldl_cons, List.filter_cons]
    by_cases hq : q x = true
    · rw [hq, if_pos rfl, List.foldl_cons]
      exact foldl_skip f q h xs (f a x)
    · have hq' : q x = false := by
        rcases Bool.eq_false_or_eq_true (q x) with hh | hh
        · exact absurd hh hq
        · exact hh
      rw [hq', h a x hq']
      simp only [Bool.false_eq_true, if_false]
      exact foldl_skip f q h xs a

/-- Invariant of the selection fold: the accumulator is the initial
pair, or carries a token count greater than one. -/
theorem firstLongest_inv (fwl : Str) (words : List Str) :
    ∀ (l : List IndexEntry) (acc : Option IndexEntry × Nat),
      ((acc.1 = none ∧ acc.2 = 1) ∨ 1 < acc.2) →
      ((l.foldl (firstLongestStep fwl words) acc).1 = none ∧
        (l.foldl (firstLongestStep fwl words) acc).2 = 1) ∨
      1 < (l.foldl (firstLongestStep fwl words) acc).2
  | [], _, h => h
  | e :: rest, acc, h => by
    simp only [List.foldl_cons]
    apply firstLongest_inv fwl words rest
    unfold firstLongestStep
    by_cases hc : (multiWordMatches fwl words e &&
        decide ((splitWs e.headword).length > acc.2)) = true
    · rw [if_pos hc]
      right
      have hgt := of_decide_eq_true ((Bool.and_eq_true _ _ |>.mp hc).2)
      rcases h with ⟨_, h1⟩ | h1 <;> simp <;> omega
    · rw [if_neg hc]
      exact h

/-- A matching entry strictly extends the first word: the first word is
a proper prefix of its headword. -/
theorem qPrefix (fwl : Str) (words : List Str) (e : IndexEntry)
    (hq : multiWordMatches fwl words e = true) :
    fwl.isPrefixOf e.headword = true ∧ strLt fwl e.headword = true := by
  unfold multiWordMatches at hq
  have h1 := (Bool.and_eq_true _ _ |>.mp (Bool.and_eq_true _ _ |>.mp hq).1).1
  have h2 := (Bool.and_eq_true _ _ |>.mp (Bool.and_eq_true _ _ |>.mp hq).1).2
  have hlen := of_decide_eq_true h1
  have htok : (splitWs e.headword).getD 0 [] = fwl := eq_of_beq h2
  rw [splitWs_head] at htok
  have hdrop := splitWs_gt1 e.headword hlen
  cases hne : e.headword.dropWhile (fun c => !(isJsSpace c)) with
  | nil => exact absurd hne hdrop
  | cons c r =>
    have hsplit : e.headword.takeWhile (fun c => !(isJsSpace c)) ++
        e.headword.dropWhile (fun c => !(isJsSpace c)) = e.headword :=
      List.takeWhile_append_dropWhile _ e.headword
    rw [htok, hne] at hsplit
    constructor
    · apply List.isPrefixOf_iff_prefix.mpr
      exact ⟨c :: r, hsplit⟩
    · rw [← hsplit]
      exact strLt_proper_prefix fwl c r

/-- Position invariants of the scan start of lookupMultiWord on a
sorted index: everything before the start is strictly below the
lowercased first word, everything from the start on is at or above
it. -/
theorem mwStart_split (idx : List IndexEntry) (fwl : Str)
    (hsort : ∀ i j, i ≤ j → j < idx.length → strLt (hwAt idx j) (hwAt idx i) = false) :
    (∀ i, i < mwStart idx fwl → strLt (hwAt idx i) fwl = true) ∧
    (∀ j, mwStart idx fwl ≤ j → j < idx.length → strLt (hwAt idx j) fwl = false) := by
  unfold mwStart
  by_cases h0 : idx.length = 0
  · rw [if_pos h0]
    exact ⟨fun i hi => by omega, fun j _ hj => by omega⟩
  · rw [if_neg h0]
    rcases hbs : bsearchAux (hwAt idx) fwl (idx.length + 1) 0 (idx.length - 1) with ⟨fst, lft⟩
    cases fst with
    | some f =>
      simp only
      have hfound : (bsearchAux (hwAt idx) fwl (idx.length + 1) 0 (idx.length - 1)).1 =
          some f := by rw [hbs]
      obtain ⟨hf, _, hfr⟩ := bsearchAux_found _ _ _ _ _ _ hfound
      have hfn : f < idx.length := by omega
      have haf : walkBack idx fwl f ≤ f := walkBack_le idx fwl f
      have hwa : hwAt idx (walkBack idx fwl f) = fwl :=
        walkBack_run idx fwl f hf (walkBack idx fwl f) le_rfl haf
      constructor
      · intro i hi
        rcases walkBack_stop idx fwl f with h0a | hne
        · omega
        · have hs2 := hsort (walkBack idx fwl f - 1) (walkBack idx fwl f)
            (by omega) (by omega)
          rw [hwa] at hs2
          have hlt : strLt (hwAt idx (walkBack idx fwl f - 1)) fwl = true := by
            rcases Bool.eq_false_or_eq_true
                (strLt (hwAt idx (walkBack idx fwl f - 1)) fwl) with hh | hh
            · exact hh
            · exact absurd (strLt_conn _ _ hh hs2) hne
          by_cases hia : i = walkBack idx fwl f - 1
          · rw [hia]
            exact hlt
          · exact strLt_of_le_of_lt _ _ _
              (hsort i (walkBack idx fwl f - 1) (by omega) (by omega)) hlt
      · intro j hj hjn
        have hs3 := hsort (walkBack idx fwl f) j hj hjn
        rw [hwa] at hs3
        exact hs3
    | none =>
      simp only
      obtain ⟨h1, h2⟩ := bsearchAux_none_split (hwAt idx) fwl idx.length hsort
        (idx.length + 1) 0 (idx.length - 1) lft (by omega) (by omega)
        (fun i hi => by omega) (fun i hi hin => by omega) hbs
      exact ⟨h1, fun j hj hjn => strLt_asymm _ _ (h2 j hj hjn)⟩

/-- The selection fold of lookupMultiWord computes claim C4's
first-longest match over the whole index: on a sorted index and a
whitespace-free (single-token) first word, the scanned block contains
every matching entry and the collected candidates process them in
index order with the same effect. -/
theorem mwFold_eq_firstLongest (idx : List IndexEntry) (fwl : Str) (words : List Str)
    (hsort : ∀ i j, i ≤ j → j < idx.length → strLt (hwAt idx j) (hwAt idx i) = false)
    (hnw : fwl.all (fun c => !(isJsSpace c)) = true) :
    (mwCandidates idx fwl).foldl (mwStep words) (none, 1) =
      firstLongestMultiWord idx fwl words := by
  have hstep : ∀ (acc : Option IndexEntry × Nat) e, e ∈ mwCandidates idx fwl →
      mwStep words acc e = firstLongestStep fwl words acc e := by
    intro acc e he
    have hpush : mwPush fwl e = true := (List.mem_filter.mp he).2
    unfold mwStep firstLongestStep
    by_cases hlen1 : (splitWs e.headword).length = 1
    · rw [if_pos hlen1]
      have hmf : multiWordMatches fwl words e = false := by
        unfold multiWordMatches
        have hdec : decide ((splitWs e.headword).length > 1) = false :=
          decide_eq_false (by omega)
        rw [hdec]
        rfl
      rw [hmf]
      rfl
    · rw [if_neg hlen1]
      have hpos : 0 < (splitWs e.headword).length :=
        List.length_pos.mpr (splitWs_ne_nil _)
      have hlen : (splitWs e.headword).length > 1 := by omega
      have htok : ((splitWs e.headword).getD 0 [] == fwl) = true := by
        rcases Bool.or_eq_true _ _ |>.mp hpush with hp | hp
        · exact (Bool.and_eq_true _ _ |>.mp hp).2
        · have hhw : e.headword = fwl := eq_of_beq hp
          rw [hhw, splitWs_noWs fwl hnw] at hlen1
          simp at hlen1
      unfold multiWordMatches
      rw [htok, decide_eq_true hlen]
      by_cases hpre : ((splitWs e.headword).drop 1).isPrefixOf words = true
      · by_cases hgt : decide ((splitWs e.headword).length > acc.2) = true
        · rw [hpre, hgt]
          simp
        · have hgt' : decide ((splitWs e.headword).length > acc.2) = false := by
            rcases Bool.eq_false_or_eq_true
                (decide ((splitWs e.headword).length > acc.2)) with hh | hh
            · exact absurd hh hgt
            · exact hh
          rw [hpre, hgt']
          simp
      · have hpre' : ((splitWs e.headword).drop 1).isPrefixOf words = false := by
          rcases Bool.eq_false_or_eq_true
              (((splitWs e.headword).drop 1).isPrefixOf words) with hh | hh
          · exact absurd hh hpre
          · exact hh
        rw [hpre']
        simp
  have hskip : ∀ (acc : Option IndexEntry × Nat) e,
      multiWordMatches fwl words e = false → firstLongestStep fwl words acc e = acc := by
    intro acc e hqe
    unfold firstLongestStep
    rw [hqe]
    rfl
  obtain ⟨hA, hGe⟩ := mwStart_split idx fwl hsort
  have hfiltereq : ((idx.drop (mwStart idx fwl)).takeWhile (mwCont fwl)).filter
      (multiWordMatches fwl words) = idx.filter (multiWordMatches fwl words) := by
    have hsplitidx : idx = idx.take (mwStart idx fwl) ++
        ((idx.drop (mwStart idx fwl)).takeWhile (mwCont fwl) ++
          (idx.drop (mwStart idx fwl)).dropWhile (mwCont fwl)) := by
      rw [List.takeWhile_append_dropWhile _ _, List.take_append_drop]
    have hfA : (idx.take (mwStart idx fwl)).filter (multiWordMatches fwl words) = [] := by
      apply List.filter_eq_nil_iff.mpr
      intro e he hqe
      obtain ⟨i, hi, hei⟩ := List.mem_iff_getElem.mp he
      have hib : i < mwStart idx fwl := by
        rw [List.length_take] at hi
        omega
      have hin : i < idx.length := by
        rw [List.length_take] at hi
        omega
      have h5 : idx.getD i dIdx = e := by
        rw [List.getD_eq_getElem idx dIdx hin, ← hei]
        exact (List.getElem_take idx).symm
      have hhw : hwAt idx i = e.headword := by
        rw [hwAt, h5]
      have hlt := hA i hib
      have hgt := (qPrefix fwl words e hqe).2
      rw [hhw] at hlt
      have := strLt_asymm _ _ hgt
      rw [this] at hlt
      exact Bool.noConfusion hlt
    have hfC : ((idx.drop (mwStart idx fwl)).dropWhile (mwCont fwl)).filter
        (multiWordMatches fwl words) = [] := by
      apply List.filter_eq_nil_iff.mpr
      intro e he hqe
      have hCd : (idx.drop (mwStart idx fwl)).dropWhile (mwCont fwl) =
          (idx.drop (mwStart idx fwl)).drop
            ((idx.drop (mwStart idx fwl)).takeWhile (mwCont fwl)).length := by
        have h := List.drop_left ((idx.drop (mwStart idx fwl)).takeWhile (mwCont fwl))
          ((idx.drop (mwStart idx fwl)).dropWhile (mwCont fwl))
        rw [List.takeWhile_append_dropWhile] at h
        exact h.symm
      obtain ⟨k, hk, hek⟩ := List.mem_iff_getElem.mp he
      have hek2 : ((idx.drop (mwStart idx fwl)).dropWhile (mwCont fwl)).getD k dIdx = e := by
        rw [List.getD_eq_getElem _ dIdx hk]
        exact hek
      rw [hCd, getD_drop, getD_drop] at hek2
      rw [hCd, List.length_drop, List.length_drop] at hk
      have hkl : ((idx.drop (mwStart idx fwl)).takeWhile (mwCont fwl)).length + k <
          idx.length - mwStart idx fwl := by omega
      have hbn : mwStart idx fwl +
          ((idx.drop (mwStart idx fwl)).takeWhile (mwCont fwl)).length < idx.length := by
        omega
      have hbk : mwStart idx fwl +
          (((idx.drop (mwStart idx fwl)).takeWhile (mwCont fwl)).length + k) <
          idx.length := by omega
      have hx0 := List.head?_dropWhile_not (mwCont fwl) (idx.drop (mwStart idx fwl))
      have hh0 : ((idx.drop (mwStart idx fwl)).dropWhile (mwCont fwl)).head? =
          some (idx.getD (mwStart idx fwl +
            ((idx.drop (mwStart idx fwl)).takeWhile (mwCont fwl)).length) dIdx) := by
        rw [hCd, List.head?_drop, List.getElem?_drop]
        rw [List.getElem?_eq_getElem hbn]
        rw [List.getD_eq_getElem idx dIdx hbn]
      rw [hh0] at hx0
      have hcontb : mwCont fwl (idx.getD (mwStart idx fwl +
          ((idx.drop (mwStart idx fwl)).takeWhile (mwCont fwl)).length) dIdx) = false := hx0
      have hble := hGe (mwStart idx fwl +
        ((idx.drop (mwStart idx fwl)).takeWhile (mwCont fwl)).length) (by omega) hbn
      have hsorted2 := hsort (mwStart idx fwl +
          ((idx.drop (mwStart idx fwl)).takeWhile (mwCont fwl)).length)
        (mwStart idx fwl +
          (((idx.drop (mwStart idx fwl)).takeWhile (mwCont fwl)).length + k))
        (by omega) hbk
      have hprefb : fwl.isPrefixOf (hwAt idx (mwStart idx fwl +
          ((idx.drop (mwStart idx fwl)).takeWhile (mwCont fwl)).length)) = true := by
        apply prefixInterval fwl fwl _ _ hble hsorted2
        · exact List.isPrefixOf_iff_prefix.mpr (List.prefix_refl fwl)
        · have hq1 := (qPrefix fwl words e hqe).1
          rw [← hek2] at hq1
          exact hq1
      rw [mwCont] at hcontb
      rw [hwAt] at hprefb
      rw [hprefb] at hcontb
      simp at hcontb
    conv_rhs => rw [hsplitidx]
    rw [List.filter_append, List.filter_append, hfA, hfC,
      List.nil_append, List.append_nil]
  have hcand : (mwCandidates idx fwl).filter (multiWordMatches fwl words) =
      idx.filter (multiWordMatches fwl words) := by
    unfold mwCandidates
    rw [List.filter_filter]
    rw [← hfiltereq]
    apply List.filter_congr
    intro e he
    by_cases hqe : multiWordMatches fwl words e = true
    · rw [hqe]
      have hp : mwPush fwl e = true := by
        unfold mwPush
        unfold multiWordMatches at hqe
        have h1 := Bool.and_eq_true _ _ |>.mp (Bool.and_eq_true _ _ |>.mp hqe).1
        rw [h1.1, h1.2]
        rfl
      rw [hp]
      rfl
    · have hqe' : multiWordMatches fwl words e = false := by
        rcases Bool.eq_false_or_eq_true (multiWordMatches fwl words e) with hh | hh
        · exact absurd hh hqe
        · exact hh
      rw [hqe']
      rfl
  rw [foldl_congr_mem (mwStep words) (firstLongestStep fwl words) _ hstep]
  rw [foldl_skip (firstLongestStep fwl words) (multiWordMatches fwl words) hskip]
  unfold firstLongestMultiWord
  rw [foldl_skip (firstLongestStep fwl words) (multiWordMatches fwl words) hskip idx]
  rw [hcand]

/-- On a sorted index and a single-token (whitespace-free) lowercased
first word, when claim C4's first-longest selection over the whole
index picks an entry and its range fetch parses, lookupMultiWord
returns exactly that entry annotated with the matched token count. -/
theorem lookupMultiWord_spec (env : Env) (idx : List IndexEntry) (nw ft : Str)
    (best : IndexEntry) (count : Nat) (fe : Result)
    (hsort : ∀ i j, i ≤ j → j < idx.length → strLt (hwAt idx j) (hwAt idx i) = false)
    (hnw : (jsToLower nw).all (fun c => !(isJsSpace c)) = true)
    (hbest : firstLongestMultiWord idx (jsToLower nw) (mwWords ft) = (some best, count))
    (hfe : fetchEntry env best.offset best.length = some fe) :
    lookupMultiWord env idx nw ft = some { fe with matchedWords := some count } := by
  have hmain := mwFold_eq_firstLongest idx (jsToLower nw) (mwWords ft) hsort hnw
  have hcount : 1 < count := by
    have hinv := firstLongest_inv (jsToLower nw) (mwWords ft) idx
      ((none : Option IndexEntry), 1) (Or.inl ⟨rfl, rfl⟩)
    unfold firstLongestMultiWord at hbest
    rw [hbest] at hinv
    rcases hinv with ⟨h1, _⟩ | h1
    · exact absurd h1 (by simp)
    · exact h1
  simp only [lookupMultiWord]
  rw [hmain, hbest]
  simp only
  rw [if_pos hcount, hfe]

/-- C4 counterexample: the index holds the multi-word headword
EST alpha, which begins with the normalized first word EST (an acronym,
so normalization preserves its case), its remaining token matches the
following text, and its entry is fetchable; yet lookup returns nothing,
because lookupMultiWord scans for the unconditionally lowercased first
word est, which the uppercase headword does not extend. -/
theorem claim_C4_cex :
    isAcronym (st "EST") = true ∧
    normalizeWord (st "EST") = st "EST" ∧
    firstLongestMultiWord idxC4 (normalizeWord (st "EST")) (mwWords (st "alpha")) =
      (some ⟨st "EST alpha", 0, 30⟩, 2) ∧
    (fetchEntry envC4 0 30).isSome = true ∧
    lookup envC4 dictC4 (st "EST") (st "alpha") = none := by
  decide

/-- Claim C4 (amended: the scan key is the lowercased normalized first
word, and the word must normalize to a single token): when the
following text is non-empty and, over the sorted loaded index, the
first-encountered strictly longest multi-word headword whose first
token equals the lowercased normalized word and whose remaining tokens
lead the following text tokens is best with token count count, and
best's entry fetch parses, lookup returns that entry annotated with
matchedWords = count. -/
theorem claim_C4 (env : Env) (d : Dict) (idx : List IndexEntry) (w ft : Str)
    (best : IndexEntry) (count : Nat) (fe : Result)
    (hc : d.indexCache = some idx)
    (hsort : ∀ i j, i ≤ j → j < idx.length → strLt (hwAt idx j) (hwAt idx i) = false)
    (hft : (jsTrim ft).isEmpty = false)
    (hnw : (jsToLower (normalizeWord w)).all (fun c => !(isJsSpace c)) = true)
    (hbest : firstLongestMultiWord idx (jsToLower (normalizeWord w)) (mwWords ft) =
      (some best, count))
    (hfe : fetchEntry env best.offset best.length = some fe) :
    lookup env d w ft = some { fe with matchedWords := some count } := by
  have hmw := lookupMultiWord_spec env idx (normalizeWord w) ft best count fe hsort hnw
    hbest hfe
  unfold lookup
  simp only [lookupFuel, hc, hft, Bool.not_false, if_true]
  rw [hmw]

/-- C4 witness: with headword pomme de terre present and following text
de terre rouge after pomme, lookup returns the three-token entry with
matchedWords = 3 rather than the one-token pomme entry. -/
theorem claim_C4_witness :
    lookup envC4W dictC4W (st "pomme") (st "de terre rouge") =
      some { c4wFe with matchedWords := some 3 } :=
  claim_C4 envC4W dictC4W idxC4W (st "pomme") (st "de terre rouge")
    ⟨st "pomme de terre", 100, 40⟩ 3 c4wFe
    (by decide)
    (by
      intro i j hij hj
      have hj2 : j < 2 := by simpa [idxC4W] using hj
      interval_cases j <;> interval_cases i <;> decide)
    (by decide) (by decide) (by decide) (by decide)

end FP
